import Mathlib

/-!
# Verification of the branch-bookmarks marker-tracking engine

A shallow embedding of the core of the `branch-bookmarks` VS Code extension:
the `BookmarkStore` class (`src/bookmarkStore.ts`) and the lexical reanchoring
function `findBestBookmarkLineMatch` (`src/extension.ts`).

Modelling choices:
* JavaScript numbers used for line arithmetic are modelled as `Int`
  (all the arithmetic in the source stays integral).
* The JS `Map` (which preserves insertion order) is modelled as an
  association list; `mapSet` replaces an existing binding in place and
  appends a fresh binding at the end, exactly like a JS `Map`.
* `generateId()` and `Date.now()` are nondeterministic inputs; `add` takes
  the fresh id and timestamp as explicit arguments.
* `async` persistence: the store operations return an extra `Bool` that is
  `true` exactly when the source would call `saveAndNotify()` (one
  persistence write plus one change notification).
* JS `String.prototype.replace` with a string pattern replaces the first
  occurrence only; it is modelled by `replaceFirst` below.  The `$`-escape
  expansion of the replacement string is not modelled; theorems touching it
  carry a hypothesis excluding `$` from the replacement.
* Whitespace (`trim`, `\s`) is modelled by `Char.isWhitespace`.
-/

namespace BB

/-- `Bookmark` record from `src/types.ts`. -/
structure Bookmark where
  id : String
  filePath : String
  lineNumber : Int
  createdAt : Int
  branchName : String
  lineText : Option String
deriving Repr, DecidableEq

/-- One `vscode.TextDocumentContentChangeEvent`: the edit range
(start line/character, end line/character) and the replacement text. -/
structure Change where
  startLine : Int
  startChar : Int
  endLine : Int
  endChar : Int
  text : String
deriving Repr, DecidableEq

/-! ## Association-list model of a JS `Map` -/

/-- First binding of key `k`, like `Map.prototype.get`. -/
def mapGet {κ α : Type} [DecidableEq κ] (m : List (κ × α)) (k : κ) : Option α :=
  match m.find? (fun kv => kv.1 = k) with
  | some kv => some kv.2
  | none => none

/-- `Map.prototype.set`: replace the binding in place when the key exists
(keeping its position), otherwise append at the end.  A JS `Map` never
holds two bindings of one key, so replacing the first occurrence is
faithful. -/
def mapSet {κ α : Type} [DecidableEq κ] : List (κ × α) → κ → α → List (κ × α)
  | [], k, v => [(k, v)]
  | kv :: rest, k, v =>
    if kv.1 = k then (k, v) :: rest else kv :: mapSet rest k v

/-- `Map.prototype.delete` (again first-occurrence, faithful for maps
without duplicate keys). -/
def mapDelete {κ α : Type} [DecidableEq κ] : List (κ × α) → κ → List (κ × α)
  | [], _ => []
  | kv :: rest, k => if kv.1 = k then rest else kv :: mapDelete rest k

/-! ## String helpers -/

/-- `KEY_SEPARATOR` from `src/bookmarkStore.ts`. -/
def KEY_SEPARATOR : String := "::"

/-- `getKey(filePath, branchName)` = `branchName + "::" + filePath`. -/
def getKey (filePath branchName : String) : String :=
  branchName ++ KEY_SEPARATOR ++ filePath

/-- JS `s.endsWith(pat)`. -/
def strEndsWith (s pat : String) : Bool :=
  pat.data.isSuffixOf s.data

/-- JS `s.startsWith(pat)`. -/
def strStartsWith (s pat : String) : Bool :=
  pat.data.isPrefixOf s.data

/-- `text.startsWith("\n")`: the first character is a line feed. -/
def startsWithNewline (s : String) : Bool :=
  match s.data with
  | [] => false
  | c :: _ => c = '\n'

/-- Replace the first occurrence of `pat` in the list, like JS
`String.prototype.replace` with a string pattern. -/
def replaceFirstAux (pat rep : List Char) : List Char → List Char
  | [] => []
  | c :: rest =>
    if pat.isPrefixOf (c :: rest) then rep ++ (c :: rest).drop pat.length
    else c :: replaceFirstAux pat rep rest

/-- JS `s.replace(pat, rep)` for a string pattern: first occurrence only
(`$`-escapes in `rep` are not modelled). -/
def replaceFirst (s pat rep : String) : String :=
  ⟨replaceFirstAux pat.data rep.data s.data⟩

/-- `text.split("\n").length - 1`: the number of line feeds in the text. -/
def countNewlines (s : String) : Nat :=
  s.data.count '\n'

/-! ## The store and its CRUD operations -/

/-- The `bookmarks: Map<string, Bookmark[]>` field of `BookmarkStore`. -/
abbrev Store : Type := List (String × List Bookmark)

/-- `add(filePath, lineNumber, branchName, lineText?)`.  The fresh id and
the `Date.now()` timestamp are passed in.  Returns the new store, the
returned bookmark, and whether `saveAndNotify` ran. -/
def add (s : Store) (filePath : String) (lineNumber : Int)
    (branchName : String) (lineText : Option String)
    (freshId : String) (now : Int) : Store × Bookmark × Bool :=
  let key := getKey filePath branchName
  let bookmarkList := (mapGet s key).getD []
  match bookmarkList.find? (fun b => b.lineNumber = lineNumber) with
  | some existing => (s, existing, false)
  | none =>
    let bookmark : Bookmark :=
      ⟨freshId, filePath, lineNumber, now, branchName, lineText⟩
    (mapSet s key (bookmarkList ++ [bookmark]), bookmark, true)

/-- The key-scan of `remove(id)`: first key whose list holds the id wins;
the key is dropped when its list becomes empty. -/
def removeGo (id : String) : Store → Store × Bool
  | [] => ([], false)
  | (k, lst) :: rest =>
    match lst.findIdx? (fun b => b.id = id) with
    | some i =>
      let lst' := lst.eraseIdx i
      if lst'.isEmpty then (rest, true) else ((k, lst') :: rest, true)
    | none =>
      let (rest', found) := removeGo id rest
      ((k, lst) :: rest', found)

/-- `remove(id)`: result store, returned boolean, and whether
`saveAndNotify` ran. -/
def remove (s : Store) (id : String) : Store × Bool × Bool :=
  let (s', found) := removeGo id s
  (s', found, found)

/-- `removeAtLine(filePath, lineNumber, branchName)`. -/
def removeAtLine (s : Store) (filePath : String) (lineNumber : Int)
    (branchName : String) : Store × Bool × Bool :=
  let key := getKey filePath branchName
  match mapGet s key with
  | none => (s, false, false)
  | some bookmarkList =>
    match bookmarkList.findIdx? (fun b => b.lineNumber = lineNumber) with
    | none => (s, false, false)
    | some i =>
      let lst' := bookmarkList.eraseIdx i
      let s' := if lst'.isEmpty then mapDelete s key else mapSet s key lst'
      (s', true, true)

/-- `hasBookmarkAtLine`. -/
def hasBookmarkAtLine (s : Store) (filePath : String) (lineNumber : Int)
    (branchName : String) : Bool :=
  match mapGet s (getKey filePath branchName) with
  | none => false
  | some lst => lst.any (fun b => b.lineNumber = lineNumber)

/-- `getBookmarkAtLine`. -/
def getBookmarkAtLine (s : Store) (filePath : String) (lineNumber : Int)
    (branchName : String) : Option Bookmark :=
  match mapGet s (getKey filePath branchName) with
  | none => none
  | some lst => lst.find? (fun b => b.lineNumber = lineNumber)

/-- `getBookmarksForFile` (value semantics; see the heap model below for
the aliasing behaviour of the returned array). -/
def getBookmarksForFile (s : Store) (filePath branchName : String) :
    List Bookmark :=
  (mapGet s (getKey filePath branchName)).getD []

/-- `getBookmarksForFileAllBranches`. -/
def getBookmarksForFileAllBranches (s : Store) (filePath : String) :
    List Bookmark :=
  ((s.filter (fun kv => strEndsWith kv.1 (KEY_SEPARATOR ++ filePath))).map
    (fun kv => kv.2)).flatten

/-- `getAllBookmarksForBranch`. -/
def getAllBookmarksForBranch (s : Store) (branchName : String) :
    List Bookmark :=
  ((s.filter (fun kv => strStartsWith kv.1 (branchName ++ KEY_SEPARATOR))).map
    (fun kv => kv.2)).flatten

/-- `getAllBookmarks`. -/
def getAllBookmarks (s : Store) : List Bookmark :=
  (s.map (fun kv => kv.2)).flatten

/-! ## The edit remapper (`updateLineNumbers`)

Per-change derived quantities, computed exactly as in the source. -/

/-- `linesRemoved = endLine - startLine`. -/
def linesRemoved (c : Change) : Int := c.endLine - c.startLine

/-- `linesAdded = change.text.split("\n").length - 1`. -/
def linesAdded (c : Change) : Int := (countNewlines c.text : Int)

/-- `lineDelta = linesAdded - linesRemoved`. -/
def lineDelta (c : Change) : Int := linesAdded c - linesRemoved c

/-- `isPureInsertion`: zero-width edit range. -/
def isPureInsertion (c : Change) : Prop :=
  linesRemoved c = 0 ∧ c.startLine = c.endLine ∧ c.startChar = c.endChar

instance (c : Change) : Decidable (isPureInsertion c) := by
  unfold isPureInsertion; infer_instance

/-- `insertsBeforeLineAtStart`: a pure insertion at column 0 whose text does
not begin with `"\n"` and which adds at least one line. -/
def insertsBeforeLineAtStart (c : Change) : Prop :=
  isPureInsertion c ∧ c.startChar = 0 ∧ startsWithNewline c.text = false ∧
    0 < linesAdded c

instance (c : Change) : Decidable (insertsBeforeLineAtStart c) := by
  unfold insertsBeforeLineAtStart; infer_instance

/-- `isDeletionOnly`: at least one line removed, empty replacement text. -/
def isDeletionOnly (c : Change) : Prop :=
  0 < linesRemoved c ∧ c.text = ""

instance (c : Change) : Decidable (isDeletionOnly c) := by
  unfold isDeletionOnly; infer_instance

/-- `deletedEndLine`: the last line actually affected by the edit. -/
def deletedEndLine (c : Change) : Int :=
  if c.endChar = 0 ∧ c.startLine < c.endLine then c.endLine - 1 else c.endLine

/-- The body of the inner `for (const bookmark of bookmarkList)` loop for a
bookmark that is not yet flagged for removal: returns the updated bookmark,
whether it was flagged for removal, and whether `modified` was set. -/
def processBookmark (c : Change) (b : Bookmark) : Bookmark × Bool × Bool :=
  if lineDelta c ≠ 0 ∨ 0 < linesRemoved c then
    if deletedEndLine c < b.lineNumber ∨
        (insertsBeforeLineAtStart c ∧ b.lineNumber = c.startLine) then
      ({ b with lineNumber := b.lineNumber + lineDelta c }, false, true)
    else if c.startLine ≤ b.lineNumber ∧ b.lineNumber ≤ deletedEndLine c ∧
        0 < linesRemoved c then
      if isDeletionOnly c then
        (b, true, true)
      else
        let relativeLine := b.lineNumber - c.startLine
        let replacementEndLine := c.startLine + linesAdded c
        let newLine := min (c.startLine + max relativeLine 0) replacementEndLine
        if newLine ≠ b.lineNumber then
          ({ b with lineNumber := newLine }, false, true)
        else
          (b, false, false)
    else
      (b, false, false)
  else
    (b, false, false)

/-- One change applied to the whole list, threading the removal set
(`bookmarksToRemove`, a list of ids) and the `modified` flag.  Bookmarks
whose id is already flagged are skipped. -/
def applyChange (c : Change) :
    List Bookmark → List String → Bool → List Bookmark × List String × Bool
  | [], removed, modified => ([], removed, modified)
  | b :: rest, removed, modified =>
    if b.id ∈ removed then
      let (rest', removed', modified') := applyChange c rest removed modified
      (b :: rest', removed', modified')
    else
      let (b', flag, m) := processBookmark c b
      let removed' := if flag then b.id :: removed else removed
      let (rest', removed'', modified') :=
        applyChange c rest removed' (modified || m)
      (b' :: rest', removed'', modified')

/-- The outer `for (const change of changes)` loop. -/
def remapBatch :
    List Change → List Bookmark → List String → Bool →
      List Bookmark × List String × Bool
  | [], bs, removed, modified => (bs, removed, modified)
  | c :: cs, bs, removed, modified =>
    let (bs', removed', modified') := applyChange c bs removed modified
    remapBatch cs bs' removed' modified'

/-- `updateLineNumbers(filePath, branchName, changes)`: returns the new
store and whether `saveAndNotify` ran. -/
def updateLineNumbers (s : Store) (filePath branchName : String)
    (changes : List Change) : Store × Bool :=
  let key := getKey filePath branchName
  match mapGet s key with
  | none => (s, false)
  | some bookmarkList =>
    if bookmarkList.isEmpty then (s, false)
    else
      let (bs, removed, modified) := remapBatch changes bookmarkList [] false
      let bs' :=
        if removed.isEmpty then bs
        else bs.filter (fun b => ¬ removed.contains b.id)
      let s' := if bs'.isEmpty then mapDelete s key else mapSet s key bs'
      (s', modified)

/-! ## The rename/merge resolver (`updateFilePath`) -/

/-- `bookmark.filePath = newPath`. -/
def setPath (b : Bookmark) (p : String) : Bookmark := { b with filePath := p }

/-- The destination-merge loop: append only bookmarks whose id is not in
`seen`, adding each appended id to `seen`. -/
def mergeDedup (seen : List String) : List Bookmark → List Bookmark
  | [] => []
  | b :: rest =>
    if seen.contains b.id then mergeDedup seen rest
    else b :: mergeDedup (b.id :: seen) rest

/-- One iteration of the `for (const [oldKey, newKey] of keysToUpdate)`
loop of `updateFilePath`. -/
def renameStep (newPath : String) (acc : Store × Bool)
    (pair : String × String) : Store × Bool :=
  if pair.1 = pair.2 then acc
  else
    match mapGet acc.1 pair.1 with
    | none => acc
    | some lst =>
      let lst' := lst.map (fun b => setPath b newPath)
      let st1 := mapDelete acc.1 pair.1
      match mapGet st1 pair.2 with
      | none => (mapSet st1 pair.2 lst', true)
      | some ex =>
        (mapSet st1 pair.2
          (ex ++ mergeDedup (ex.map (fun b => b.id)) lst'), true)

/-- The `keysToUpdate` list of `updateFilePath`: every key ending in
`"::" + oldPath`, paired with its first-occurrence replacement. -/
def renamePairs (s : Store) (oldPath newPath : String) :
    List (String × String) :=
  (s.filter (fun kv => strEndsWith kv.1 (KEY_SEPARATOR ++ oldPath))).map
    (fun kv =>
      (kv.1, replaceFirst kv.1 (KEY_SEPARATOR ++ oldPath)
        (KEY_SEPARATOR ++ newPath)))

/-- `updateFilePath(oldPath, newPath)`: returns the new store and whether
`saveAndNotify` ran (at most once for the whole rename). -/
def updateFilePath (s : Store) (oldPath newPath : String) : Store × Bool :=
  (renamePairs s oldPath newPath).foldl (renameStep newPath) (s, false)

/-! ## The lexical reanchorer (`findBestBookmarkLineMatch`) -/

/-- Strip leading and trailing whitespace, like JS `String.prototype.trim`. -/
def trimChars (l : List Char) : List Char :=
  ((l.dropWhile Char.isWhitespace).reverse.dropWhile Char.isWhitespace).reverse

/-- JS `text.trim()`. -/
def jsTrim (s : String) : String := ⟨trimChars s.data⟩

/-- Collapse every maximal run of whitespace to a single space
(`text.replace(/\s+/g, " ")`); `prevWs` records whether the previous
character belonged to a whitespace run. -/
def collapseWsAux : Bool → List Char → List Char
  | _, [] => []
  | prevWs, c :: rest =>
    if c.isWhitespace then
      if prevWs then collapseWsAux true rest
      else ' ' :: collapseWsAux true rest
    else c :: collapseWsAux false rest

/-- `normalizeLineForMatch(text) = text.trim().replace(/\s+/g, " ")`. -/
def normalizeLineForMatch (s : String) : String :=
  ⟨collapseWsAux false (trimChars s.data)⟩

/-- `document.lineAt(i).text` over the document modelled as its list of
lines. -/
def lineAt (doc : List String) (i : Nat) : String := doc.getD i ""

/-- `|line - bookmark.lineNumber|` as a natural number. -/
def lineDist (i : Nat) (storedLine : Int) : Nat :=
  ((i : Int) - storedLine).natAbs

/-- Is distance `d` strictly better than the best candidate so far
(`none` = positive infinity)? -/
def betterDist (cur : Option (Nat × Nat)) (d : Nat) : Prop :=
  match cur with
  | none => True
  | some cur => d < cur.2

instance (cur : Option (Nat × Nat)) (d : Nat) : Decidable (betterDist cur d) := by
  unfold betterDist; cases cur <;> infer_instance

/-- The scan loop of `findBestBookmarkLineMatch`: lines `i, i+1, ...` are
the elements of `rest`; `bestRaw` and `bestNorm` carry `(line, distance)`
for the best exact-trim and whitespace-collapsed candidates so far. -/
def scanGo (storedLine : Int) (rawTarget normTarget : String) :
    Nat → List String → Option (Nat × Nat) → Option (Nat × Nat) →
      Option (Nat × Nat) × Option (Nat × Nat)
  | _, [], bestRaw, bestNorm => (bestRaw, bestNorm)
  | i, s :: rest, bestRaw, bestNorm =>
    let d := lineDist i storedLine
    let bestRaw' :=
      if rawTarget ≠ "" ∧ jsTrim s = rawTarget ∧ betterDist bestRaw d then
        some (i, d)
      else bestRaw
    let bestNorm' :=
      if normTarget ≠ "" ∧ normalizeLineForMatch s = normTarget ∧
          betterDist bestNorm d then
        some (i, d)
      else bestNorm
    scanGo storedLine rawTarget normTarget (i + 1) rest bestRaw' bestNorm'

/-- Proof auxiliary: one track of the scan loop, for an arbitrary
line-matching predicate `p`; `scanGo` is proved equal to a pair of these
(`scanGo_fst`, `scanGo_snd`). -/
def scanOne (sl : Int) (p : String → Prop) [DecidablePred p] :
    Nat → List String → Option (Nat × Nat) → Option (Nat × Nat)
  | _, [], best => best
  | i, s :: rest, best =>
    scanOne sl p (i + 1) rest
      (if p s ∧ betterDist best (lineDist i sl) then
        some (i, lineDist i sl) else best)

/-- `Math.max(0, Math.min(bookmark.lineNumber, document.lineCount - 1))`:
the stored line clamped into the document's range. -/
def clampLine (doc : List String) (storedLine : Int) : Nat :=
  (max 0 (min storedLine ((doc.length : Int) - 1))).toNat

/-- `findBestBookmarkLineMatch(document, bookmark)` over the document's
lines and the bookmark's stored line number and cached `lineText`. -/
def findBestBookmarkLineMatch (doc : List String) (storedLine : Int)
    (cachedText : Option String) : Option Nat :=
  match cachedText with
  | none => none
  | some t =>
    if doc.length = 0 then none
    else
      let rawTarget := jsTrim t
      let normTarget := normalizeLineForMatch t
      if rawTarget = "" ∧ normTarget = "" then none
      else
        if jsTrim (lineAt doc (clampLine doc storedLine)) = rawTarget then
          some (clampLine doc storedLine)
        else if normalizeLineForMatch (lineAt doc (clampLine doc storedLine))
            = normTarget ∧ 0 < normTarget.length then
          some (clampLine doc storedLine)
        else
          match scanGo storedLine rawTarget normTarget 0 doc none none with
          | (some best, _) => some best.1
          | (none, some best) => some best.1
          | (none, none) => none

/-! ## Heap model of the read views

`getBookmarksForFile` returns `this.bookmarks.get(key) ?? []`: when the key
exists, that is the store's own array object, not a copy.  To state the
aliasing claim, arrays are modelled as heap references: `heap` maps a
reference to the array's contents, `refIndex` maps the composite key to the
reference the store holds, and `next` is the next fresh reference. -/
structure HeapStore where
  heap : List (Nat × List Bookmark)
  refIndex : List (String × Nat)
  next : Nat
deriving Repr, DecidableEq

/-- Contents of the array object behind reference `r`. -/
def readRef (h : List (Nat × List Bookmark)) (r : Nat) : List Bookmark :=
  (mapGet h r).getD []

/-- Replace the contents stored at reference `r`, leaving the heap
unchanged when `r` holds no array object. -/
def writeRefAux : List (Nat × List Bookmark) → Nat → List Bookmark →
    List (Nat × List Bookmark)
  | [], _, _ => []
  | p :: rest, r, v =>
    if p.1 = r then (r, v) :: rest else p :: writeRefAux rest r v

/-- In-place mutation of the array object behind reference `r` (for
example `splice`): its contents are replaced by `v`. -/
def writeRef (s : HeapStore) (r : Nat) (v : List Bookmark) : HeapStore :=
  { s with heap := writeRefAux s.heap r v }

/-- Allocate a fresh array object holding `v`. -/
def allocRef (s : HeapStore) (v : List Bookmark) : Nat × HeapStore :=
  (s.next, { s with heap := s.heap ++ [(s.next, v)], next := s.next + 1 })

/-- The bookmark list the store currently associates with
`(filePath, branchName)` — what any subsequent query reads. -/
def markersForValueH (s : HeapStore) (filePath branchName : String) :
    List Bookmark :=
  match mapGet s.refIndex (getKey filePath branchName) with
  | none => []
  | some r => readRef s.heap r

/-- `getBookmarksForFile` in the heap model: `bookmarks.get(key) ?? []`
returns the store's own array when the key exists, and a fresh empty array
otherwise. -/
def getBookmarksForFileH (s : HeapStore) (filePath branchName : String) :
    Nat × HeapStore :=
  match mapGet s.refIndex (getKey filePath branchName) with
  | some r => (r, s)
  | none => allocRef s []

/-- `getBookmarksForFileAllBranches` in the heap model: builds a fresh
result array. -/
def getBookmarksForFileAllBranchesH (s : HeapStore) (filePath : String) :
    Nat × HeapStore :=
  allocRef s
    (((s.refIndex.filter
        (fun kv => strEndsWith kv.1 (KEY_SEPARATOR ++ filePath))).map
      (fun kv => readRef s.heap kv.2)).flatten)

/-- `getAllBookmarksForBranch` in the heap model: builds a fresh result
array. -/
def getAllBookmarksForBranchH (s : HeapStore) (branchName : String) :
    Nat × HeapStore :=
  allocRef s
    (((s.refIndex.filter
        (fun kv => strStartsWith kv.1 (branchName ++ KEY_SEPARATOR))).map
      (fun kv => readRef s.heap kv.2)).flatten)

/-- `getAllBookmarks` in the heap model: builds a fresh result array. -/
def getAllBookmarksH (s : HeapStore) : Nat × HeapStore :=
  allocRef s ((s.refIndex.map (fun kv => readRef s.heap kv.2)).flatten)

/-- Heap-store sanity: every reference the index holds is live (below
`next`) and backed by an array object in the heap. -/
def HeapWF (s : HeapStore) : Prop :=
  ∀ p ∈ s.refIndex, p.2 < s.next ∧ (mapGet s.heap p.2).isSome = true

instance (s : HeapStore) : Decidable (HeapWF s) := by
  unfold HeapWF; infer_instance

/-- Spec-side characterization (used to state the corrected persistence
condition of claim C5): a single edit makes `updateLineNumbers` set its
`modified` flag for bookmark `b` exactly when this predicate holds.  Note
the first disjunct does not require the shift `lineDelta` to be nonzero:
the source sets `modified = true` on the after-the-range branch even when
the delta is zero. -/
def singleEditModifies (c : Change) (b : Bookmark) : Prop :=
  (lineDelta c ≠ 0 ∨ 0 < linesRemoved c) ∧
    ((deletedEndLine c < b.lineNumber ∨
        (insertsBeforeLineAtStart c ∧ b.lineNumber = c.startLine)) ∨
      (c.startLine ≤ b.lineNumber ∧ b.lineNumber ≤ deletedEndLine c ∧
        0 < linesRemoved c ∧
        (isDeletionOnly c ∨
          min (c.startLine + max (b.lineNumber - c.startLine) 0)
            (c.startLine + linesAdded c) ≠ b.lineNumber)))

instance (c : Change) (b : Bookmark) : Decidable (singleEditModifies c b) := by
  unfold singleEditModifies; infer_instance

/-! # Theorems -/

/-! ## Association-list lemmas -/

theorem mapGet_cons {κ α : Type} [DecidableEq κ] (kv : κ × α) (m : List (κ × α))
    (k : κ) : mapGet (kv :: m) k = if kv.1 = k then some kv.2 else mapGet m k := by
  by_cases h : kv.1 = k <;> simp [mapGet, List.find?_cons, h]

theorem find?_eq_none_of_all {α : Type} {p : α → Bool} {l : List α}
    (h : ∀ x ∈ l, p x = false) : l.find? p = none := by
  induction l with
  | nil => rfl
  | cons a rest ih =>
    rw [List.find?_cons, h a (List.mem_cons_self a rest)]
    exact ih (fun x hx => h x (List.mem_cons_of_mem a hx))

theorem mapGet_set_self {κ α : Type} [DecidableEq κ] (m : List (κ × α)) (k : κ)
    (v : α) : mapGet (mapSet m k v) k = some v := by
  induction m with
  | nil => simp [mapSet, mapGet_cons]
  | cons kv rest ih =>
    by_cases ha : kv.1 = k
    · simp [mapSet, ha, mapGet_cons]
    · simp [mapSet, ha, mapGet_cons, ih]

theorem mapGet_set_ne {κ α : Type} [DecidableEq κ] (m : List (κ × α)) (k k' : κ)
    (v : α) (h : k' ≠ k) : mapGet (mapSet m k v) k' = mapGet m k' := by
  induction m with
  | nil =>
    show mapGet [(k, v)] k' = mapGet [] k'
    rw [mapGet_cons, if_neg (fun hk : k = k' => h hk.symm)]
  | cons kv rest ih =>
    by_cases ha : kv.1 = k
    · rw [mapSet, if_pos ha, mapGet_cons, mapGet_cons,
        if_neg (fun hk : k = k' => h hk.symm),
        if_neg (show ¬ kv.1 = k' from ha ▸ fun hk => h hk.symm)]
    · rw [mapSet, if_neg ha, mapGet_cons, mapGet_cons]
      by_cases hk : kv.1 = k'
      · simp [hk]
      · rw [if_neg hk, if_neg hk]; exact ih

theorem mapGet_delete_self {κ α : Type} [DecidableEq κ] (m : List (κ × α))
    (k : κ) (hn : (m.map (fun kv => kv.1)).Nodup) :
    mapGet (mapDelete m k) k = none := by
  induction m with
  | nil => rfl
  | cons kv rest ih =>
    simp only [List.map_cons, List.nodup_cons] at hn
    by_cases ha : kv.1 = k
    · rw [mapDelete, if_pos ha]
      unfold mapGet
      rw [find?_eq_none_of_all]
      intro x hx
      simp only [decide_eq_false_iff_not]
      intro hxk
      exact hn.1 (ha ▸ hxk ▸ List.mem_map_of_mem (fun kv => kv.1) hx)
    · rw [mapDelete, if_neg ha, mapGet_cons, if_neg ha]
      exact ih hn.2

theorem mapGet_delete_ne {κ α : Type} [DecidableEq κ] (m : List (κ × α))
    (k k' : κ) (h : k' ≠ k) : mapGet (mapDelete m k) k' = mapGet m k' := by
  induction m with
  | nil => rfl
  | cons kv rest ih =>
    by_cases ha : kv.1 = k
    · rw [mapDelete, if_pos ha, mapGet_cons,
        if_neg (show ¬ kv.1 = k' from ha ▸ fun hk => h hk.symm)]
    · rw [mapDelete, if_neg ha, mapGet_cons, mapGet_cons]
      by_cases hk : kv.1 = k'
      · simp [hk]
      · rw [if_neg hk, if_neg hk]; exact ih

theorem findIdx?_go_eq_none_of_all {α : Type} {p : α → Bool} {l : List α}
    (h : ∀ x ∈ l, p x = false) : ∀ i, l.findIdx? p i = none := by
  induction l with
  | nil => intro i; rfl
  | cons a rest ih =>
    intro i
    rw [List.findIdx?_cons, h a (List.mem_cons_self a rest)]
    simp only [Bool.false_eq_true, if_false]
    exact ih (fun x hx => h x (List.mem_cons_of_mem a hx)) (i + 1)

theorem findIdx?_eq_none_of_all {α : Type} {p : α → Bool} {l : List α}
    (h : ∀ x ∈ l, p x = false) : l.findIdx? p = none :=
  findIdx?_go_eq_none_of_all h 0

/-! ## Claim C10: composite-key collision -/

/-- C10: because storage keys are built by plain concatenation
`branchName ++ "::" ++ filePath`, distinct `(scope, documentId)` pairs can
collide.  Adding a marker for document `"B::f"` under scope `"A"` makes
`hasBookmarkAtLine "f" _ "A::B"` answer `true`, and
`getAllBookmarksForBranch "A::B"` return that marker even though its
`branchName` is `"A"` — scope isolation fails for separator-containing
strings. -/
theorem C10_key_collision :
    hasBookmarkAtLine (add [] "B::f" 3 "A" none "m1" 0).1 "f" 3 "A::B" = true ∧
    getAllBookmarksForBranch (add [] "B::f" 3 "A" none "m1" 0).1 "A::B" =
      [⟨"m1", "B::f", 3, 0, "A", none⟩] ∧
    (⟨"m1", "B::f", 3, 0, "A", none⟩ : Bookmark).branchName = "A" ∧
    ("A" : String) ≠ "A::B" ∧ ("B::f" : String) ≠ "f" := by
  refine ⟨by decide, by decide, rfl, by decide, by decide⟩

/-! ## Claim C4: aliasing of the read views -/

/-- C4 counterexample: `getBookmarksForFile` returns
`this.bookmarks.get(key) ?? []`, i.e. the store's own array when the key
exists.  Emptying the returned array (`splice`-style mutation) empties the
store's list, so a subsequent query sees the store changed — refuting the
claim that every read view returns a non-aliased sequence. -/
theorem C4_counterexample :
    markersForValueH
      (writeRef
        (getBookmarksForFileH
          ⟨[(0, [⟨"id1", "f", 3, 0, "main", none⟩])],
            [(getKey "f" "main", 0)], 1⟩ "f" "main").2
        (getBookmarksForFileH
          ⟨[(0, [⟨"id1", "f", 3, 0, "main", none⟩])],
            [(getKey "f" "main", 0)], 1⟩ "f" "main").1
        []) "f" "main" = [] ∧
    markersForValueH
      (⟨[(0, [⟨"id1", "f", 3, 0, "main", none⟩])],
        [(getKey "f" "main", 0)], 1⟩ : HeapStore) "f" "main" =
      [⟨"id1", "f", 3, 0, "main", none⟩] := by
  exact ⟨by decide, by decide⟩

/-! ## Claim C5: persistence exactly on change -/

/-- C5 counterexample: an equal-line-count replacement (`linesRemoved = 2`,
`linesAdded = 2`, `lineDelta = 0`) with the only marker at line 10, beyond
the edited range.  No marker line changes and none is removed — the result
store equals the input store — yet `updateLineNumbers` reports `true`: the
source sets `modified = true` on the after-the-range branch even though it
adds a zero delta, so a persistence write and a change notification do
happen, refuting the claimed "iff". -/
theorem C5_counterexample :
    updateLineNumbers [("main::f", [⟨"id1", "f", 10, 0, "main", none⟩])]
      "f" "main" [⟨0, 0, 2, 5, "a\nb\nc"⟩] =
      ([("main::f", [⟨"id1", "f", 10, 0, "main", none⟩])], true) := by
  decide

/-! ## Claim C7: rename/merge -/

/-- C7 counterexample: scope `"a::b"`, document `"b"`, rename `"b" → "c"`.
The store key is `"a::b::b"`; `updateFilePath` rewrites the *first*
occurrence of `"::b"`, producing key `"a::c::b"` instead of the destination
key `getKey "c" "a::b" = "a::b::c"`.  The claim's conclusion fails: after
the rename, `markersFor("c", "a::b")` is empty instead of holding the
moved marker (which sits under the unrelated key `"a::c::b"`). -/
theorem C7_counterexample :
    getBookmarksForFile
      (updateFilePath [(getKey "b" "a::b", [⟨"idX", "b", 0, 0, "a::b", none⟩])]
        "b" "c").1 "c" "a::b" = [] ∧
    (updateFilePath [(getKey "b" "a::b", [⟨"idX", "b", 0, 0, "a::b", none⟩])]
        "b" "c").1 =
      [("a::c::b", [⟨"idX", "c", 0, 0, "a::b", none⟩])] := by
  exact ⟨by decide, by decide⟩

/-! ## Claim C9: not-found removals -/

/-- C9: `remove` with an id present on no marker and `removeAtLine` with no
marker at the triple return `false`, leave the store unchanged, and neither
persist nor notify (the third component, the `saveAndNotify` flag, stays
`false`).  Both are total functions, so neither can raise. -/
theorem C9_remove_not_found (s : Store) (id filePath branchName : String)
    (lineNumber : Int)
    (h1 : ∀ kv ∈ s, ∀ b ∈ kv.2, b.id ≠ id)
    (h2 : getBookmarkAtLine s filePath lineNumber branchName = none) :
    remove s id = (s, false, false) ∧
    removeAtLine s filePath lineNumber branchName = (s, false, false) := by
  constructor
  · have hgo : ∀ s : Store, (∀ kv ∈ s, ∀ b ∈ kv.2, b.id ≠ id) →
        removeGo id s = (s, false) := by
      intro s
      induction s with
      | nil => intro _; rfl
      | cons kv rest ih =>
        intro hall
        rcases kv with ⟨k, lst⟩
        rw [removeGo]
        have hidx : lst.findIdx? (fun b : Bookmark => decide (b.id = id)) =
            none := by
          apply findIdx?_eq_none_of_all
          intro b hb
          simpa using hall (k, lst) (List.mem_cons_self _ _) b hb
        rw [hidx, ih (fun kv hkv => hall kv (List.mem_cons_of_mem _ hkv))]
    rw [remove, hgo s h1]
  · rw [removeAtLine]
    unfold getBookmarkAtLine at h2
    cases hget : mapGet s (getKey filePath branchName) with
    | none => rfl
    | some lst =>
      rw [hget] at h2
      have hidx : lst.findIdx?
          (fun b : Bookmark => decide (b.lineNumber = lineNumber)) = none := by
        apply findIdx?_eq_none_of_all
        intro b hb
        simpa using List.find?_eq_none.mp h2 b hb
      simp only [hidx]

/-- C9 witness: a concrete store with one marker; removing an unknown id
and a marker-free line leaves everything untouched. -/
theorem C9_remove_not_found_witness :
    remove [("main::f", [⟨"id1", "f", 10, 0, "main", none⟩])] "other" =
      ([("main::f", [⟨"id1", "f", 10, 0, "main", none⟩])], false, false) ∧
    removeAtLine [("main::f", [⟨"id1", "f", 10, 0, "main", none⟩])]
        "f" 99 "main" =
      ([("main::f", [⟨"id1", "f", 10, 0, "main", none⟩])], false, false) :=
  C9_remove_not_found
    [("main::f", [⟨"id1", "f", 10, 0, "main", none⟩])] "other" "f" "main" 99
    (by decide) (by decide)

/-! ## Claim C6: idempotent duplicate add -/

/-- C6: `add` is idempotent per `(scope, documentId, line)`.  For any store
(whether or not a marker already occupies the triple), a second `add` with
the same triple returns the very marker the first call returned — same
`id`, same `createdAt` — leaves the store untouched, and does not persist
or notify, even though the second call drew a different fresh id and
timestamp.  `add` is total, so it always succeeds; starting from the empty
store the file's marker list has length 1 after the two calls. -/
theorem C6_add_idempotent (s : Store) (filePath : String) (lineNumber : Int)
    (branchName : String) (lineText : Option String)
    (id1 id2 : String) (now1 now2 : Int) :
    (add (add s filePath lineNumber branchName lineText id1 now1).1
        filePath lineNumber branchName lineText id2 now2).2.1 =
      (add s filePath lineNumber branchName lineText id1 now1).2.1 ∧
    (add (add s filePath lineNumber branchName lineText id1 now1).1
        filePath lineNumber branchName lineText id2 now2).1 =
      (add s filePath lineNumber branchName lineText id1 now1).1 ∧
    (add (add s filePath lineNumber branchName lineText id1 now1).1
        filePath lineNumber branchName lineText id2 now2).2.2 = false ∧
    (getBookmarksForFile
        (add (add ([] : Store) filePath lineNumber branchName lineText id1
          now1).1 filePath lineNumber branchName lineText id2 now2).1
        filePath branchName).length = 1 := by
  have hmain : ∀ s0 : Store,
      add (add s0 filePath lineNumber branchName lineText id1 now1).1
          filePath lineNumber branchName lineText id2 now2 =
        ((add s0 filePath lineNumber branchName lineText id1 now1).1,
          (add s0 filePath lineNumber branchName lineText id1 now1).2.1,
          false) := by
    intro s0
    cases hfind : ((mapGet s0 (getKey filePath branchName)).getD []).find?
        (fun b : Bookmark => decide (b.lineNumber = lineNumber)) with
    | some ex =>
      have h1 : add s0 filePath lineNumber branchName lineText id1 now1 =
          (s0, ex, false) := by
        simp only [add, hfind]
      rw [h1]
      simp only [add, hfind]
    | none =>
      have h1 : add s0 filePath lineNumber branchName lineText id1 now1 =
          (mapSet s0 (getKey filePath branchName)
            (((mapGet s0 (getKey filePath branchName)).getD []) ++
              [⟨id1, filePath, lineNumber, now1, branchName, lineText⟩]),
            ⟨id1, filePath, lineNumber, now1, branchName, lineText⟩, true) := by
        simp only [add, hfind]
      rw [h1]
      simp only [add, mapGet_set_self, Option.getD_some, List.find?_append,
        hfind, Option.none_or, List.find?_cons]
      simp
  refine ⟨by rw [hmain s], by rw [hmain s], by rw [hmain s], ?_⟩
  rw [hmain []]
  show (getBookmarksForFile
      [(getKey filePath branchName,
        [⟨id1, filePath, lineNumber, now1, branchName, lineText⟩])]
      filePath branchName).length = 1
  unfold getBookmarksForFile
  rw [mapGet_cons, if_pos rfl]
  rfl

/-! ## Edit-remapper lemmas -/

theorem applyChange_cons (c : Change) (b : Bookmark) (rest : List Bookmark)
    (removed : List String) (modified : Bool) :
    applyChange c (b :: rest) removed modified =
      if b.id ∈ removed then
        (b :: (applyChange c rest removed modified).1,
          (applyChange c rest removed modified).2)
      else
        ((processBookmark c b).1 ::
            (applyChange c rest
              (if (processBookmark c b).2.1 = true then b.id :: removed
                else removed)
              (modified || (processBookmark c b).2.2)).1,
          (applyChange c rest
            (if (processBookmark c b).2.1 = true then b.id :: removed
              else removed)
            (modified || (processBookmark c b).2.2)).2) := by
  rw [applyChange]

theorem remapBatch_cons (c : Change) (cs : List Change) (bs : List Bookmark)
    (removed : List String) (modified : Bool) :
    remapBatch (c :: cs) bs removed modified =
      remapBatch cs (applyChange c bs removed modified).1
        (applyChange c bs removed modified).2.1
        (applyChange c bs removed modified).2.2 := by
  rw [remapBatch]

theorem processBookmark_id (c : Change) (b : Bookmark) :
    ((processBookmark c b).1).id = b.id := by
  simp only [processBookmark]
  repeat' split
  all_goals rfl

theorem processBookmark_flag_le (c : Change) (b : Bookmark) :
    (processBookmark c b).2.1 =
      ((processBookmark c b).2.1 && (processBookmark c b).2.2) := by
  simp only [processBookmark]
  repeat' split
  all_goals rfl

theorem processBookmark_flag_modified (c : Change) (b : Bookmark)
    (h : (processBookmark c b).2.1 = true) :
    (processBookmark c b).2.2 = true := by
  have hle := processBookmark_flag_le c b
  rw [h] at hle
  simpa using hle.symm

theorem applyChange_removed_mono (c : Change) :
    ∀ (bs : List Bookmark) (removed : List String) (m : Bool) (x : String),
      x ∈ removed → x ∈ (applyChange c bs removed m).2.1 := by
  intro bs
  induction bs with
  | nil => intro removed m x hx; exact hx
  | cons a rest ih =>
    intro removed m x hx
    rw [applyChange_cons]
    by_cases hmem : a.id ∈ removed
    · rw [if_pos hmem]; exact ih removed m x hx
    · rw [if_neg hmem]
      by_cases hflag : (processBookmark c a).2.1 = true
      · rw [if_pos hflag]
        exact ih _ _ x (List.mem_cons_of_mem _ hx)
      · rw [if_neg hflag]
        exact ih _ _ x hx

theorem applyChange_length (c : Change) :
    ∀ (bs : List Bookmark) (removed : List String) (m : Bool),
      ((applyChange c bs removed m).1).length = bs.length := by
  intro bs
  induction bs with
  | nil => intro removed m; rfl
  | cons a rest ih =>
    intro removed m
    rw [applyChange_cons]
    by_cases hmem : a.id ∈ removed
    · rw [if_pos hmem]; simp [ih]
    · rw [if_neg hmem]; simp [ih]

theorem remapBatch_length (cs : List Change) :
    ∀ (bs : List Bookmark) (removed : List String) (m : Bool),
      ((remapBatch cs bs removed m).1).length = bs.length := by
  induction cs with
  | nil => intro bs removed m; rfl
  | cons c cs ih =>
    intro bs removed m
    rw [remapBatch_cons, ih, applyChange_length]

theorem applyChange_ids (c : Change) :
    ∀ (bs : List Bookmark) (removed : List String) (m : Bool),
      ((applyChange c bs removed m).1).map (fun b => b.id) =
        bs.map (fun b => b.id) := by
  intro bs
  induction bs with
  | nil => intro removed m; rfl
  | cons a rest ih =>
    intro removed m
    rw [applyChange_cons]
    by_cases hmem : a.id ∈ removed
    · rw [if_pos hmem]; simp [ih]
    · rw [if_neg hmem]; simp [ih, processBookmark_id]

theorem applyChange_skip_unchanged (c : Change) :
    ∀ (bs : List Bookmark) (removed : List String) (m : Bool) (i : Nat)
      (h : i < bs.length), (bs[i]).id ∈ removed →
      ((applyChange c bs removed m).1)[i]? = some bs[i] := by
  intro bs
  induction bs with
  | nil => intro removed m i h; cases h.not_le (Nat.zero_le i)
  | cons a rest ih =>
    intro removed m i h hid
    rw [applyChange_cons]
    by_cases hmem : a.id ∈ removed
    · rw [if_pos hmem]
      cases i with
      | zero => simp
      | succ j =>
        have hj : j < rest.length := Nat.lt_of_succ_lt_succ h
        simpa using ih removed m j hj (by simpa using hid)
    · rw [if_neg hmem]
      cases i with
      | zero => exact absurd hid hmem
      | succ j =>
        have hj : j < rest.length := Nat.lt_of_succ_lt_succ h
        by_cases hflag : (processBookmark c a).2.1 = true
        · rw [if_pos hflag]
          simpa using ih _ _ j hj
            (List.mem_cons_of_mem _ (by simpa using hid))
        · rw [if_neg hflag]
          simpa using ih _ _ j hj (by simpa using hid)

theorem applyChange_map_of_noflag (c : Change)
    (hflag : ∀ b, (processBookmark c b).2.1 = false) :
    ∀ (bs : List Bookmark) (m : Bool),
      (applyChange c bs [] m).1 =
        bs.map (fun b => (processBookmark c b).1) ∧
      (applyChange c bs [] m).2.1 = [] := by
  intro bs
  induction bs with
  | nil => intro m; exact ⟨rfl, rfl⟩
  | cons a rest ih =>
    intro m
    rw [applyChange_cons, if_neg (List.not_mem_nil a.id)]
    rw [hflag a]
    simp only [Bool.false_eq_true, if_false, List.map_cons]
    exact ⟨by rw [(ih _).1], (ih _).2⟩

theorem applyChange_modified_mono (c : Change) :
    ∀ (bs : List Bookmark) (removed : List String),
      (applyChange c bs removed true).2.2 = true := by
  intro bs
  induction bs with
  | nil => intro removed; rfl
  | cons a rest ih =>
    intro removed
    rw [applyChange_cons]
    by_cases hmem : a.id ∈ removed
    · rw [if_pos hmem]; exact ih removed
    · rw [if_neg hmem]
      simp only [Bool.true_or]
      by_cases hflag : (processBookmark c a).2.1 = true
      · rw [if_pos hflag]; exact ih _
      · rw [if_neg hflag]; exact ih _

theorem processBookmark_modified_iff (c : Change) (b : Bookmark) :
    (processBookmark c b).2.2 = true ↔ singleEditModifies c b := by
  unfold singleEditModifies
  simp only [processBookmark]
  by_cases hgate : lineDelta c ≠ 0 ∨ 0 < linesRemoved c
  · rw [if_pos hgate]
    by_cases hb1 : deletedEndLine c < b.lineNumber ∨
        (insertsBeforeLineAtStart c ∧ b.lineNumber = c.startLine)
    · rw [if_pos hb1]
      exact iff_of_true rfl ⟨hgate, Or.inl hb1⟩
    · rw [if_neg hb1]
      by_cases hb2 : c.startLine ≤ b.lineNumber ∧
          b.lineNumber ≤ deletedEndLine c ∧ 0 < linesRemoved c
      · rw [if_pos hb2]
        by_cases hdel : isDeletionOnly c
        · rw [if_pos hdel]
          exact iff_of_true rfl
            ⟨hgate, Or.inr ⟨hb2.1, hb2.2.1, hb2.2.2, Or.inl hdel⟩⟩
        · rw [if_neg hdel]
          by_cases hnl : min (c.startLine + max (b.lineNumber - c.startLine) 0)
              (c.startLine + linesAdded c) ≠ b.lineNumber
          · rw [if_pos hnl]
            exact iff_of_true rfl
              ⟨hgate, Or.inr ⟨hb2.1, hb2.2.1, hb2.2.2, Or.inr hnl⟩⟩
          · rw [if_neg hnl]
            apply iff_of_false (by simp)
            rintro ⟨_, h1 | h2⟩
            · exact hb1 h1
            · rcases h2.2.2.2 with hd | hmin
              · exact hdel hd
              · exact hnl hmin
      · rw [if_neg hb2]
        apply iff_of_false (by simp)
        rintro ⟨_, h1 | h2⟩
        · exact hb1 h1
        · exact hb2 ⟨h2.1, h2.2.1, h2.2.2.1⟩
  · rw [if_neg hgate]
    apply iff_of_false (by simp)
    rintro ⟨hg, _⟩
    exact hgate hg

theorem applyChange_modified_sound (c : Change) :
    ∀ (bs : List Bookmark) (removed : List String) (m : Bool),
      (applyChange c bs removed m).2.2 = true →
      m = true ∨ ∃ b ∈ bs, singleEditModifies c b := by
  intro bs
  induction bs with
  | nil => intro removed m h; exact Or.inl h
  | cons a rest ih =>
    intro removed m h
    rw [applyChange_cons] at h
    by_cases hmem : a.id ∈ removed
    · rw [if_pos hmem] at h
      rcases ih removed m h with hm | ⟨b, hb, hP⟩
      · exact Or.inl hm
      · exact Or.inr ⟨b, List.mem_cons_of_mem _ hb, hP⟩
    · rw [if_neg hmem] at h
      rcases ih _ _ h with hm | ⟨b, hb, hP⟩
      · rcases Bool.or_eq_true_iff.mp hm with hm' | hpm
        · exact Or.inl hm'
        · exact Or.inr ⟨a, List.mem_cons_self _ _,
            (processBookmark_modified_iff c a).mp hpm⟩
      · exact Or.inr ⟨b, List.mem_cons_of_mem _ hb, hP⟩

theorem applyChange_modified_complete (c : Change) :
    ∀ (bs : List Bookmark) (removed : List String) (m : Bool) (b : Bookmark),
      (removed ≠ [] → m = true) → b ∈ bs → singleEditModifies c b →
      (applyChange c bs removed m).2.2 = true := by
  intro bs
  induction bs with
  | nil => intro removed m b _ hb; cases hb
  | cons a rest ih =>
    intro removed m b hinv hb hP
    rw [applyChange_cons]
    by_cases hmem : a.id ∈ removed
    · rw [if_pos hmem]
      have hm : m = true := hinv (fun he => by rw [he] at hmem; cases hmem)
      rw [hm]
      exact applyChange_modified_mono c rest removed
    · rw [if_neg hmem]
      rcases List.mem_cons.mp hb with rfl | hb'
      · have hpm : (processBookmark c b).2.2 = true :=
          (processBookmark_modified_iff c b).mpr hP
        rw [hpm, Bool.or_true]
        by_cases hflag : (processBookmark c b).2.1 = true
        · rw [if_pos hflag]; exact applyChange_modified_mono c rest _
        · rw [if_neg hflag]; exact applyChange_modified_mono c rest _
      · by_cases hflag : (processBookmark c a).2.1 = true
        · rw [if_pos hflag]
          have hpm := processBookmark_flag_modified c a hflag
          rw [hpm, Bool.or_true]
          exact applyChange_modified_mono c rest _
        · rw [if_neg hflag]
          apply ih _ _ b _ hb' hP
          intro hre
          rcases Bool.or_eq_true_iff.mpr (Or.inl (hinv hre)) with h
          exact h

theorem processBookmark_insert (c : Change) (h1 : c.startLine = c.endLine)
    (h2 : c.startChar = c.endChar) (h3 : c.startChar = 0)
    (h4 : startsWithNewline c.text = false) (h5 : 1 ≤ linesAdded c)
    (b : Bookmark) :
    (processBookmark c b).1 =
      (if deletedEndLine c < b.lineNumber ∨ b.lineNumber = c.startLine then
        { b with lineNumber := b.lineNumber + linesAdded c }
      else b) ∧
    (processBookmark c b).2.1 = false := by
  have hrem : linesRemoved c = 0 := by unfold linesRemoved; omega
  have hdelta : lineDelta c = linesAdded c := by
    unfold lineDelta; rw [hrem]; ring
  have hgate : lineDelta c ≠ 0 ∨ 0 < linesRemoved c := by
    left; rw [hdelta]; omega
  have hins : insertsBeforeLineAtStart c :=
    ⟨⟨hrem, h1, h2⟩, h3, h4, by omega⟩
  simp only [processBookmark]
  rw [if_pos hgate]
  by_cases hb : deletedEndLine c < b.lineNumber ∨ b.lineNumber = c.startLine
  · have hb' : deletedEndLine c < b.lineNumber ∨
        (insertsBeforeLineAtStart c ∧ b.lineNumber = c.startLine) := by
      rcases hb with h | h
      · exact Or.inl h
      · exact Or.inr ⟨hins, h⟩
    rw [if_pos hb', if_pos hb, hdelta]
    exact ⟨rfl, rfl⟩
  · have hb' : ¬ (deletedEndLine c < b.lineNumber ∨
        (insertsBeforeLineAtStart c ∧ b.lineNumber = c.startLine)) := by
      rintro (h | ⟨_, h⟩)
      · exact hb (Or.inl h)
      · exact hb (Or.inr h)
    rw [if_neg hb', if_neg (by rintro ⟨_, _, hlt⟩; omega), if_neg hb]
    exact ⟨rfl, rfl⟩

theorem processBookmark_deletion (c : Change) (hdel : isDeletionOnly c)
    (b : Bookmark) (hin1 : c.startLine ≤ b.lineNumber)
    (hin2 : b.lineNumber ≤ deletedEndLine c) :
    processBookmark c b = (b, true, true) := by
  have hrem : 0 < linesRemoved c := hdel.1
  simp only [processBookmark]
  rw [if_pos (Or.inr hrem)]
  rw [if_neg ?hb1, if_pos ⟨hin1, hin2, hrem⟩, if_pos hdel]
  case hb1 =>
    rintro (hgt | ⟨hins, _⟩)
    · exact absurd hin2 (not_le.mpr hgt)
    · have := hins.1.1
      omega

theorem processBookmark_replace (c : Change) (hrem : 0 < linesRemoved c)
    (htext : c.text ≠ "") (b : Bookmark) (hin1 : c.startLine ≤ b.lineNumber)
    (hin2 : b.lineNumber ≤ deletedEndLine c) :
    (processBookmark c b).1 =
      { b with lineNumber :=
          (min (c.startLine + max (b.lineNumber - c.startLine) 0)
            (c.startLine + linesAdded c)) } ∧
    (processBookmark c b).2.1 = false := by
  simp only [processBookmark]
  rw [if_pos (Or.inr hrem)]
  rw [if_neg ?hb1, if_pos ⟨hin1, hin2, hrem⟩,
    if_neg (fun hd : isDeletionOnly c => htext hd.2)]
  case hb1 =>
    rintro (hgt | ⟨hins, _⟩)
    · exact absurd hin2 (not_le.mpr hgt)
    · have := hins.1.1
      omega
  by_cases hnl : min (c.startLine + max (b.lineNumber - c.startLine) 0)
      (c.startLine + linesAdded c) ≠ b.lineNumber
  · rw [if_pos hnl]
    exact ⟨rfl, rfl⟩
  · rw [if_neg hnl]
    rw [not_not] at hnl
    refine ⟨?_, rfl⟩
    rw [hnl]

/-! ## Claim C1: pure insertion shift -/

/-- C1: for a pure insertion at column 0 whose text does not begin with a
line break and adds `linesAdded c ≥ 1` lines at line `startLine`,
remapping a one-edit batch adds `linesAdded c` to the line of every marker
whose line is strictly greater than `deletedEndLine` and to every marker
whose line equals `startLine`, leaves all other markers untouched, and
flags no marker for removal. -/
theorem C1_pure_insertion_shift (c : Change) (bs : List Bookmark)
    (h1 : c.startLine = c.endLine) (h2 : c.startChar = c.endChar)
    (h3 : c.startChar = 0) (h4 : startsWithNewline c.text = false)
    (h5 : 1 ≤ linesAdded c) :
    (remapBatch [c] bs [] false).1 =
      bs.map (fun b =>
        if deletedEndLine c < b.lineNumber ∨ b.lineNumber = c.startLine then
          { b with lineNumber := b.lineNumber + linesAdded c }
        else b) ∧
    (remapBatch [c] bs [] false).2.1 = [] := by
  have hflag : ∀ b, (processBookmark c b).2.1 = false :=
    fun b => (processBookmark_insert c h1 h2 h3 h4 h5 b).2
  have hmap := applyChange_map_of_noflag c hflag bs false
  rw [remapBatch_cons, hmap.2]
  constructor
  · show (applyChange c bs [] false).1 = _
    rw [hmap.1]
    exact List.map_congr_left
      (fun b _ => (processBookmark_insert c h1 h2 h3 h4 h5 b).1)
  · rfl

/-- C1 witness: a marker at line 19; an edit inserts 3 new lines at column
0 of line 5; after remapping the marker is at line 22 and nothing was
flagged for removal. -/
theorem C1_pure_insertion_shift_witness :
    (remapBatch [⟨5, 0, 5, 0, "x\ny\nz\n"⟩]
        [⟨"id1", "f", 19, 0, "main", none⟩] [] false).1 =
      [⟨"id1", "f", 22, 0, "main", none⟩] ∧
    (remapBatch [⟨5, 0, 5, 0, "x\ny\nz\n"⟩]
        [⟨"id1", "f", 19, 0, "main", none⟩] [] false).2.1 = [] := by
  have h := C1_pure_insertion_shift ⟨5, 0, 5, 0, "x\ny\nz\n"⟩
    [⟨"id1", "f", 19, 0, "main", none⟩] rfl rfl rfl rfl (by decide)
  refine ⟨?_, h.2⟩
  rw [h.1]
  decide

/-! ## Claim C2: deletion swallows markers -/

/-- C2: for a deletion-only edit, every marker whose line lies in
`[startLine, deletedEndLine]` is flagged and removed from the store:
(1) its id enters the removal set of the one-edit batch;
(2) the per-edit passes never delete markers from the list — deletion
happens once, after the whole batch (the remapped list keeps its length
for every batch);
(3) a marker already flagged is ignored (returned unchanged) by any later
edit of the batch;
(4) at store level, after `updateLineNumbers` with the deletion edit no
marker with a swallowed marker's id remains in the file's list. -/
theorem C2_deletion_swallows (c : Change) (hdel : isDeletionOnly c) :
    (∀ (bs : List Bookmark) (b : Bookmark), b ∈ bs →
        c.startLine ≤ b.lineNumber → b.lineNumber ≤ deletedEndLine c →
        b.id ∈ (remapBatch [c] bs [] false).2.1) ∧
    (∀ (cs : List Change) (bs : List Bookmark) (removed : List String)
        (m : Bool), ((remapBatch cs bs removed m).1).length = bs.length) ∧
    (∀ (c' : Change) (bs : List Bookmark) (removed : List String) (m : Bool)
        (i : Nat) (h : i < bs.length), (bs[i]).id ∈ removed →
        ((applyChange c' bs removed m).1)[i]? = some bs[i]) ∧
    (∀ (s : Store) (f br : String) (bs : List Bookmark) (b : Bookmark),
        (s.map (fun kv => kv.1)).Nodup →
        mapGet s (getKey f br) = some bs → b ∈ bs →
        c.startLine ≤ b.lineNumber → b.lineNumber ≤ deletedEndLine c →
        ∀ m' ∈ getBookmarksForFile (updateLineNumbers s f br [c]).1 f br,
          m'.id ≠ b.id) := by
  have hcore : ∀ (bs : List Bookmark) (removed : List String) (m : Bool)
      (b : Bookmark), b ∈ bs →
      c.startLine ≤ b.lineNumber → b.lineNumber ≤ deletedEndLine c →
      b.id ∈ (applyChange c bs removed m).2.1 := by
    intro bs
    induction bs with
    | nil => intro removed m b hb; cases hb
    | cons a rest ih =>
      intro removed m b hb hin1 hin2
      rw [applyChange_cons]
      by_cases hmem : a.id ∈ removed
      · rw [if_pos hmem]
        rcases List.mem_cons.mp hb with rfl | hb'
        · exact applyChange_removed_mono c rest removed m _ hmem
        · exact ih removed m b hb' hin1 hin2
      · rw [if_neg hmem]
        rcases List.mem_cons.mp hb with rfl | hb'
        · rw [processBookmark_deletion c hdel b hin1 hin2]
          simp only [if_pos rfl]
          exact applyChange_removed_mono c rest _ _ _
            (List.mem_cons_self _ _)
        · exact ih _ _ b hb' hin1 hin2
  refine ⟨?_, remapBatch_length, applyChange_skip_unchanged, ?_⟩
  · intro bs b hb hin1 hin2
    rw [remapBatch_cons]
    exact hcore bs [] false b hb hin1 hin2
  · intro s f br bs b hnodup hget hb hin1 hin2 m' hm' heq
    have hbid : b.id ∈ (remapBatch [c] bs [] false).2.1 := by
      rw [remapBatch_cons]
      exact hcore bs [] false b hb hin1 hin2
    have hbs_ne : bs.isEmpty = false := by
      cases bs
      · cases hb
      · rfl
    have hrem_ne : (remapBatch [c] bs [] false).2.1.isEmpty = false := by
      cases hr : (remapBatch [c] bs [] false).2.1
      · rw [hr] at hbid; cases hbid
      · rfl
    have hupd : (updateLineNumbers s f br [c]).1 =
        (if ((remapBatch [c] bs [] false).1.filter
              (fun x => ¬ (remapBatch [c] bs [] false).2.1.contains x.id)).isEmpty
          then mapDelete s (getKey f br)
          else mapSet s (getKey f br)
            ((remapBatch [c] bs [] false).1.filter
              (fun x => ¬ (remapBatch [c] bs [] false).2.1.contains x.id))) := by
      simp only [updateLineNumbers, hget, hbs_ne, hrem_ne]
      rfl
    rw [hupd] at hm'
    by_cases hempty : ((remapBatch [c] bs [] false).1.filter
        (fun x => ¬ (remapBatch [c] bs [] false).2.1.contains x.id)).isEmpty
    · rw [if_pos hempty] at hm'
      unfold getBookmarksForFile at hm'
      rw [mapGet_delete_self s (getKey f br) hnodup] at hm'
      cases hm'
    · rw [if_neg hempty] at hm'
      unfold getBookmarksForFile at hm'
      rw [mapGet_set_self] at hm'
      simp only [Option.getD_some] at hm'
      have := (List.mem_filter.mp hm').2
      simp only [decide_eq_true_eq] at this
      rw [heq] at this
      exact this (List.elem_eq_true_of_mem hbid)

/-- C2 witness: a marker at line 10 and an edit deleting lines 8–12
(deletion-only, end column 20): the marker's id enters the removal set, and
at store level the file's marker list is empty afterwards. -/
theorem C2_deletion_swallows_witness :
    ("id1" ∈ (remapBatch [⟨8, 0, 12, 20, ""⟩]
        [⟨"id1", "f", 10, 0, "main", none⟩] [] false).2.1) ∧
    (∀ m' ∈ getBookmarksForFile
        (updateLineNumbers [("main::f", [⟨"id1", "f", 10, 0, "main", none⟩])]
          "f" "main" [⟨8, 0, 12, 20, ""⟩]).1 "f" "main",
      m'.id ≠ "id1") := by
  have h := C2_deletion_swallows ⟨8, 0, 12, 20, ""⟩ (by decide)
  constructor
  · exact h.1 [⟨"id1", "f", 10, 0, "main", none⟩]
      ⟨"id1", "f", 10, 0, "main", none⟩ (List.mem_cons_self _ _)
      (by decide) (by decide)
  · intro m' hm'
    exact h.2.2.2 [("main::f", [⟨"id1", "f", 10, 0, "main", none⟩])]
      "f" "main" [⟨"id1", "f", 10, 0, "main", none⟩]
      ⟨"id1", "f", 10, 0, "main", none⟩ (by decide) (by decide)
      (List.mem_cons_self _ _) (by decide) (by decide) m' hm'

/-! ## Claim C3: replacement preserves markers -/

/-- C3: for a replacement edit that removes at least one line and has
non-empty replacement text, no marker is flagged for removal by the
one-edit batch, and every marker whose line lies in
`[startLine, deletedEndLine]` ends at
`min (startLine + max (line - startLine) 0) (startLine + linesAdded)`. -/
theorem C3_replacement_preserves (c : Change) (bs : List Bookmark)
    (hrem : 0 < linesRemoved c) (htext : c.text ≠ "") :
    (remapBatch [c] bs [] false).2.1 = [] ∧
    (∀ (i : Nat) (h : i < bs.length),
      c.startLine ≤ (bs[i]).lineNumber →
      (bs[i]).lineNumber ≤ deletedEndLine c →
      ((remapBatch [c] bs [] false).1)[i]? =
        some { bs[i] with lineNumber :=
          (min (c.startLine + max ((bs[i]).lineNumber - c.startLine) 0)
            (c.startLine + linesAdded c)) }) := by
  have hflag : ∀ b, (processBookmark c b).2.1 = false := by
    intro b
    simp only [processBookmark]
    repeat' split
    all_goals first
      | rfl
      | (rename_i hd; exact absurd hd.2 (by intro h; exact htext h))
  have hmap := applyChange_map_of_noflag c hflag bs false
  rw [remapBatch_cons, hmap.2]
  constructor
  · rfl
  · intro i h hin1 hin2
    show ((applyChange c bs [] false).1)[i]? = _
    rw [hmap.1]
    rw [List.getElem?_map]
    have hbi : bs[i]? = some bs[i] := List.getElem?_eq_getElem h
    rw [hbi]
    show some ((processBookmark c bs[i]).1) = _
    rw [(processBookmark_replace c hrem htext bs[i] hin1 hin2).1]

/-- C3 witness: a marker at line 3 inside lines 0–4; the whole block is
replaced by text with the same line count (4 line breaks); after
remapping the marker remains at line 3 and the removal set is empty. -/
theorem C3_replacement_preserves_witness :
    (remapBatch [⟨0, 0, 4, 7, "a\nb\nc\nd\ne"⟩]
        [⟨"id1", "f", 3, 0, "main", none⟩] [] false).2.1 = [] ∧
    ((remapBatch [⟨0, 0, 4, 7, "a\nb\nc\nd\ne"⟩]
        [⟨"id1", "f", 3, 0, "main", none⟩] [] false).1)[0]? =
      some ⟨"id1", "f", 3, 0, "main", none⟩ := by
  have h := C3_replacement_preserves ⟨0, 0, 4, 7, "a\nb\nc\nd\ne"⟩
    [⟨"id1", "f", 3, 0, "main", none⟩] (by decide) (by decide)
  refine ⟨h.1, ?_⟩
  rw [h.2 0 (by decide) (by decide) (by decide)]
  decide

/-! ## Claim C5: persistence condition (amended) -/

/-- C5 (amended): for a single-edit batch, `updateLineNumbers` persists and
notifies iff some marker of the file's list satisfies
`singleEditModifies` — i.e. it is either beyond the edit (or pushed down by
a column-0 insertion), *regardless of whether the delta is zero*, or it is
flagged by a deletion, or it is actually moved by the replacement clamp.
The original claim's "iff at least one marker's line actually changed or a
marker was removed" fails precisely on the first disjunct with
`lineDelta = 0` (see the counterexample). -/
theorem C5_persistence_characterization (s : Store) (f br : String)
    (c : Change) (bs : List Bookmark)
    (hget : mapGet s (getKey f br) = some bs) :
    (updateLineNumbers s f br [c]).2 = true ↔
      ∃ b ∈ bs, singleEditModifies c b := by
  cases bs with
  | nil =>
    have : (updateLineNumbers s f br [c]).2 = false := by
      simp only [updateLineNumbers, hget]
      rfl
    rw [this]
    simp
  | cons a rest =>
    have hbd : (updateLineNumbers s f br [c]).2 =
        (remapBatch [c] (a :: rest) [] false).2.2 := by
      simp only [updateLineNumbers, hget]
      rfl
    rw [hbd, remapBatch_cons]
    show (applyChange c (a :: rest) [] false).2.2 = true ↔ _
    constructor
    · intro h
      rcases applyChange_modified_sound c (a :: rest) [] false h with hm | hex
      · cases hm
      · exact hex
    · rintro ⟨b, hb, hP⟩
      exact applyChange_modified_complete c (a :: rest) [] false b
        (fun he => absurd rfl he) hb hP

/-- C5 witness: the equal-line-count replacement of lines 0–2 with a
marker at line 10: the marker satisfies the after-the-range disjunct of
`singleEditModifies` (with `lineDelta = 0`), so the theorem yields that a
persistence write happens. -/
theorem C5_persistence_characterization_witness :
    ((updateLineNumbers [("main::f", [⟨"id1", "f", 10, 0, "main", none⟩])]
        "f" "main" [⟨0, 0, 2, 5, "a\nb\nc"⟩]).2 = true ↔
      ∃ b ∈ [(⟨"id1", "f", 10, 0, "main", none⟩ : Bookmark)],
        singleEditModifies ⟨0, 0, 2, 5, "a\nb\nc"⟩ b) ∧
    (updateLineNumbers [("main::f", [⟨"id1", "f", 10, 0, "main", none⟩])]
        "f" "main" [⟨0, 0, 2, 5, "a\nb\nc"⟩]).2 = true :=
  ⟨C5_persistence_characterization
      [("main::f", [⟨"id1", "f", 10, 0, "main", none⟩])] "f" "main"
      ⟨0, 0, 2, 5, "a\nb\nc"⟩ [⟨"id1", "f", 10, 0, "main", none⟩] (by decide),
    by decide⟩

/-! ## Heap-model lemmas for the read views -/

theorem mapGet_writeRefAux_ne (h : List (Nat × List Bookmark)) (r : Nat)
    (v : List Bookmark) (k : Nat) (hk : k ≠ r) :
    mapGet (writeRefAux h r v) k = mapGet h k := by
  induction h with
  | nil => rfl
  | cons p rest ih =>
    by_cases hp : p.1 = r
    · rw [writeRefAux, if_pos hp, mapGet_cons, mapGet_cons,
        if_neg (fun he : r = k => hk he.symm),
        if_neg (show ¬ p.1 = k from hp ▸ fun he => hk he.symm)]
    · rw [writeRefAux, if_neg hp, mapGet_cons, mapGet_cons]
      by_cases hpk : p.1 = k
      · simp [hpk]
      · rw [if_neg hpk, if_neg hpk]; exact ih

theorem mapGet_writeRefAux_self (h : List (Nat × List Bookmark)) (r : Nat)
    (v : List Bookmark) (hs : (mapGet h r).isSome = true) :
    mapGet (writeRefAux h r v) r = some v := by
  induction h with
  | nil => simp [mapGet] at hs
  | cons p rest ih =>
    by_cases hp : p.1 = r
    · rw [writeRefAux, if_pos hp, mapGet_cons, if_pos rfl]
    · rw [writeRefAux, if_neg hp, mapGet_cons, if_neg hp]
      rw [mapGet_cons, if_neg hp] at hs
      exact ih hs

theorem mapGet_append_single_ne (h : List (Nat × List Bookmark)) (n k : Nat)
    (c : List Bookmark) (hk : k ≠ n) :
    mapGet (h ++ [(n, c)]) k = mapGet h k := by
  induction h with
  | nil =>
    show mapGet [(n, c)] k = none
    rw [mapGet_cons, if_neg (fun he : n = k => hk he.symm)]
    rfl
  | cons p rest ih =>
    rw [List.cons_append, mapGet_cons, mapGet_cons]
    by_cases hpk : p.1 = k
    · simp [hpk]
    · rw [if_neg hpk, if_neg hpk]; exact ih

theorem mapGet_eq_some_mem {κ α : Type} [DecidableEq κ]
    {m : List (κ × α)} {k : κ} {v : α} (h : mapGet m k = some v) :
    (k, v) ∈ m := by
  unfold mapGet at h
  cases hf : m.find? (fun kv => kv.1 = k) with
  | none => rw [hf] at h; cases h
  | some kv =>
    rw [hf] at h
    have hmem := List.mem_of_find?_eq_some hf
    have hp := List.find?_some hf
    simp only [decide_eq_true_eq] at hp
    have hv : kv.2 = v := by injection h
    have : kv = (k, v) := Prod.ext hp hv
    rw [this] at hmem
    exact hmem

theorem markersForValue_writeRef_fresh (s : HeapStore) (hwf : HeapWF s)
    (contents v : List Bookmark) (f br : String) :
    markersForValueH
        (writeRef (allocRef s contents).2 (allocRef s contents).1 v) f br =
      markersForValueH s f br := by
  unfold markersForValueH allocRef writeRef
  cases hidx : mapGet s.refIndex (getKey f br) with
  | none => rfl
  | some r =>
    have hr : r < s.next :=
      (hwf (getKey f br, r) (mapGet_eq_some_mem hidx)).1
    show (mapGet (writeRefAux (s.heap ++ [(s.next, contents)]) s.next v)
        r).getD [] = (mapGet s.heap r).getD []
    rw [mapGet_writeRefAux_ne _ _ _ _ (Nat.ne_of_lt hr),
      mapGet_append_single_ne _ _ _ _ (Nat.ne_of_lt hr)]

/-! ## Claim C4: read views and aliasing (amended) -/

/-- C4 (amended): of the four read views, `getAllBookmarks`,
`getAllBookmarksForBranch` and `getBookmarksForFileAllBranches` build fresh
result arrays, and `getBookmarksForFile` builds a fresh (empty) array when
the composite key is absent: overwriting the returned array's contents
with anything leaves every subsequent query unchanged.  But when the key
is present, `getBookmarksForFile` returns the store's *own* array
(`bookmarks.get(key) ?? []`), and mutating it is visible: after
overwriting, the store's list for that key *is* the new contents —
refuting the claim that all views return non-aliased sequences. -/
theorem C4_views_aliasing_amended (s : HeapStore) (hwf : HeapWF s)
    (f br f' br' : String) (v : List Bookmark) :
    (markersForValueH
        (writeRef (getAllBookmarksH s).2 (getAllBookmarksH s).1 v) f' br' =
      markersForValueH s f' br') ∧
    (markersForValueH
        (writeRef (getAllBookmarksForBranchH s br).2
          (getAllBookmarksForBranchH s br).1 v) f' br' =
      markersForValueH s f' br') ∧
    (markersForValueH
        (writeRef (getBookmarksForFileAllBranchesH s f).2
          (getBookmarksForFileAllBranchesH s f).1 v) f' br' =
      markersForValueH s f' br') ∧
    (mapGet s.refIndex (getKey f br) = none →
      markersForValueH
          (writeRef (getBookmarksForFileH s f br).2
            (getBookmarksForFileH s f br).1 v) f' br' =
        markersForValueH s f' br') ∧
    (∀ r : Nat, mapGet s.refIndex (getKey f br) = some r →
      getBookmarksForFileH s f br = (r, s) ∧
      markersForValueH (writeRef s r v) f br = v) := by
  refine ⟨markersForValue_writeRef_fresh s hwf _ v f' br',
    markersForValue_writeRef_fresh s hwf _ v f' br',
    markersForValue_writeRef_fresh s hwf _ v f' br', ?_, ?_⟩
  · intro hnone
    have : getBookmarksForFileH s f br = allocRef s [] := by
      unfold getBookmarksForFileH
      rw [hnone]
    rw [this]
    exact markersForValue_writeRef_fresh s hwf [] v f' br'
  · intro r hr
    constructor
    · unfold getBookmarksForFileH
      rw [hr]
    · unfold markersForValueH writeRef
      rw [hr]
      have hs : (mapGet s.heap r).isSome = true :=
        (hwf (getKey f br, r) (mapGet_eq_some_mem hr)).2
      show (mapGet (writeRefAux s.heap r v) r).getD [] = v
      rw [mapGet_writeRefAux_self _ _ _ hs]
      rfl

/-- C4 amended-claim witness: a concrete well-formed heap store with one
marker; mutating the array returned by `getAllBookmarks` leaves the store's
view unchanged, while mutating the one returned by `getBookmarksForFile`
(present key, reference 0) replaces the store's list. -/
theorem C4_views_aliasing_amended_witness :
    (markersForValueH
        (writeRef
          (getAllBookmarksH
            ⟨[(0, [⟨"id1", "f", 3, 0, "main", none⟩])],
              [(getKey "f" "main", 0)], 1⟩).2
          (getAllBookmarksH
            ⟨[(0, [⟨"id1", "f", 3, 0, "main", none⟩])],
              [(getKey "f" "main", 0)], 1⟩).1 []) "f" "main" =
      markersForValueH
        ⟨[(0, [⟨"id1", "f", 3, 0, "main", none⟩])],
          [(getKey "f" "main", 0)], 1⟩ "f" "main") ∧
    (getBookmarksForFileH
        ⟨[(0, [⟨"id1", "f", 3, 0, "main", none⟩])],
          [(getKey "f" "main", 0)], 1⟩ "f" "main" =
      (0, ⟨[(0, [⟨"id1", "f", 3, 0, "main", none⟩])],
        [(getKey "f" "main", 0)], 1⟩) ∧
      markersForValueH
        (writeRef
          ⟨[(0, [⟨"id1", "f", 3, 0, "main", none⟩])],
            [(getKey "f" "main", 0)], 1⟩ 0 []) "f" "main" = []) := by
  have h := C4_views_aliasing_amended
    ⟨[(0, [⟨"id1", "f", 3, 0, "main", none⟩])], [(getKey "f" "main", 0)], 1⟩
    (by decide) "f" "main" "f" "main" []
  exact ⟨h.1, h.2.2.2.2 0 (by decide)⟩

/-! ## Rename/merge lemmas -/

theorem strEndsWith_append (x y : String) : strEndsWith (x ++ y) y = true := by
  unfold strEndsWith
  rw [String.data_append]
  exact List.isSuffixOf_iff_suffix.mpr (List.suffix_append x.data y.data)

theorem getKey_decompose (filePath branchName : String) :
    getKey filePath branchName = branchName ++ (KEY_SEPARATOR ++ filePath) := by
  unfold getKey
  rw [String.append_assoc]

theorem mapGet_eq_some_split {κ α : Type} [DecidableEq κ]
    {m : List (κ × α)} {k : κ} {v : α} (h : mapGet m k = some v) :
    ∃ m1 m2, m = m1 ++ (k, v) :: m2 ∧ ∀ kv ∈ m1, kv.1 ≠ k := by
  induction m with
  | nil => cases h
  | cons kv rest ih =>
    rw [mapGet_cons] at h
    by_cases hk : kv.1 = k
    · rw [if_pos hk] at h
      have hv : kv.2 = v := by injection h
      refine ⟨[], rest, ?_, fun _ h => absurd h (List.not_mem_nil _)⟩
      rw [List.nil_append, ← hk, ← hv]
    · rw [if_neg hk] at h
      obtain ⟨m1, m2, heq, hall⟩ := ih h
      refine ⟨kv :: m1, m2, by rw [heq, List.cons_append], ?_⟩
      intro kv' hkv'
      rcases List.mem_cons.mp hkv' with rfl | hmem
      · exact hk
      · exact hall kv' hmem

theorem keys_mapDelete_sublist {κ α : Type} [DecidableEq κ]
    (m : List (κ × α)) (k : κ) :
    ((mapDelete m k).map (fun kv => kv.1)).Sublist
      (m.map (fun kv => kv.1)) := by
  induction m with
  | nil => exact List.Sublist.refl _
  | cons kv rest ih =>
    by_cases hk : kv.1 = k
    · rw [mapDelete, if_pos hk, List.map_cons]
      exact (List.Sublist.refl _).cons _
    · rw [mapDelete, if_neg hk, List.map_cons, List.map_cons]
      exact ih.cons₂ _

theorem nodup_mapDelete {κ α : Type} [DecidableEq κ]
    (m : List (κ × α)) (k : κ) (hn : (m.map (fun kv => kv.1)).Nodup) :
    ((mapDelete m k).map (fun kv => kv.1)).Nodup :=
  (keys_mapDelete_sublist m k).nodup hn

theorem mem_keys_mapSet {κ α : Type} [DecidableEq κ]
    (m : List (κ × α)) (k : κ) (v : α) (x : κ)
    (h : x ∈ (mapSet m k v).map (fun kv => kv.1)) :
    x ∈ m.map (fun kv => kv.1) ∨ x = k := by
  induction m with
  | nil =>
    rw [show mapSet ([] : List (κ × α)) k v = [(k, v)] from rfl] at h
    simp only [List.map_cons, List.map_nil, List.mem_singleton] at h
    exact Or.inr h
  | cons kv rest ih =>
    by_cases hk : kv.1 = k
    · rw [mapSet, if_pos hk] at h
      simp only [List.map_cons, List.mem_cons] at h ⊢
      rcases h with rfl | h
      · exact Or.inr rfl
      · exact Or.inl (Or.inr h)
    · rw [mapSet, if_neg hk] at h
      simp only [List.map_cons, List.mem_cons] at h ⊢
      rcases h with rfl | h
      · exact Or.inl (Or.inl rfl)
      · rcases ih h with h' | h'
        · exact Or.inl (Or.inr h')
        · exact Or.inr h'

theorem nodup_mapSet {κ α : Type} [DecidableEq κ]
    (m : List (κ × α)) (k : κ) (v : α)
    (hn : (m.map (fun kv => kv.1)).Nodup) :
    ((mapSet m k v).map (fun kv => kv.1)).Nodup := by
  induction m with
  | nil => simp [mapSet]
  | cons kv rest ih =>
    simp only [List.map_cons, List.nodup_cons] at hn
    by_cases hk : kv.1 = k
    · rw [mapSet, if_pos hk]
      simp only [List.map_cons, List.nodup_cons]
      exact ⟨hk ▸ hn.1, hn.2⟩
    · rw [mapSet, if_neg hk]
      simp only [List.map_cons, List.nodup_cons]
      refine ⟨?_, ih hn.2⟩
      intro hmem
      rcases mem_keys_mapSet rest k v kv.1 hmem with h' | h'
      · exact hn.1 h'
      · exact hk h'

theorem renameStep_eq (np : String) (acc : Store × Bool)
    (p : String × String) :
    renameStep np acc p =
      if p.1 = p.2 then acc
      else
        match mapGet acc.1 p.1 with
        | none => acc
        | some lst =>
          match mapGet (mapDelete acc.1 p.1) p.2 with
          | none =>
            (mapSet (mapDelete acc.1 p.1) p.2
              (lst.map (fun b => setPath b np)), true)
          | some ex =>
            (mapSet (mapDelete acc.1 p.1) p.2
              (ex ++ mergeDedup (ex.map (fun b => b.id))
                (lst.map (fun b => setPath b np))), true) := by
  unfold renameStep
  rfl

theorem renameStep_nodup (np : String) (acc : Store × Bool)
    (p : String × String)
    (hn : (acc.1.map (fun kv => kv.1)).Nodup) :
    (((renameStep np acc p).1).map (fun kv => kv.1)).Nodup := by
  rw [renameStep_eq]
  by_cases heq : p.1 = p.2
  · rw [if_pos heq]; exact hn
  · rw [if_neg heq]
    cases hget : mapGet acc.1 p.1 with
    | none => exact hn
    | some lst =>
      cases hget2 : mapGet (mapDelete acc.1 p.1) p.2 with
      | none =>
        exact nodup_mapSet _ _ _ (nodup_mapDelete _ _ hn)
      | some ex =>
        exact nodup_mapSet _ _ _ (nodup_mapDelete _ _ hn)

theorem renameStep_frame (np : String) (acc : Store × Bool)
    (p : String × String) (k : String) (h1 : p.1 ≠ k) (h2 : p.2 ≠ k) :
    mapGet ((renameStep np acc p).1) k = mapGet acc.1 k := by
  rw [renameStep_eq]
  by_cases heq : p.1 = p.2
  · rw [if_pos heq]
  · rw [if_neg heq]
    cases hget : mapGet acc.1 p.1 with
    | none => rfl
    | some lst =>
      cases hget2 : mapGet (mapDelete acc.1 p.1) p.2 with
      | none =>
        rw [mapGet_set_ne _ _ _ _ (fun he => h2 he.symm),
          mapGet_delete_ne _ _ _ (fun he => h1 he.symm)]
      | some ex =>
        rw [mapGet_set_ne _ _ _ _ (fun he => h2 he.symm),
          mapGet_delete_ne _ _ _ (fun he => h1 he.symm)]

theorem renameStep_modified_mono (np : String) (acc : Store × Bool)
    (p : String × String) (h : acc.2 = true) :
    (renameStep np acc p).2 = true := by
  rw [renameStep_eq]
  by_cases heq : p.1 = p.2
  · rw [if_pos heq]; exact h
  · rw [if_neg heq]
    cases hget : mapGet acc.1 p.1 with
    | none => exact h
    | some lst =>
      cases hget2 : mapGet (mapDelete acc.1 p.1) p.2 with
      | none => rfl
      | some ex => rfl

theorem renameFold_frame (np : String) :
    ∀ (pairs : List (String × String)) (acc : Store × Bool) (k : String),
      (∀ p ∈ pairs, p.1 ≠ k ∧ p.2 ≠ k) →
      mapGet ((pairs.foldl (renameStep np) acc).1) k = mapGet acc.1 k := by
  intro pairs
  induction pairs with
  | nil => intro acc k _; rfl
  | cons p rest ih =>
    intro acc k hall
    rw [List.foldl_cons]
    rw [ih (renameStep np acc p) k
      (fun q hq => hall q (List.mem_cons_of_mem _ hq))]
    exact renameStep_frame np acc p k
      (hall p (List.mem_cons_self _ _)).1 (hall p (List.mem_cons_self _ _)).2

theorem renameFold_modified_mono (np : String) :
    ∀ (pairs : List (String × String)) (acc : Store × Bool),
      acc.2 = true → ((pairs.foldl (renameStep np) acc)).2 = true := by
  intro pairs
  induction pairs with
  | nil => intro acc h; exact h
  | cons p rest ih =>
    intro acc h
    rw [List.foldl_cons]
    exact ih _ (renameStep_modified_mono np acc p h)

theorem renameFold_nodup (np : String) :
    ∀ (pairs : List (String × String)) (acc : Store × Bool),
      (acc.1.map (fun kv => kv.1)).Nodup →
      (((pairs.foldl (renameStep np) acc).1).map (fun kv => kv.1)).Nodup := by
  intro pairs
  induction pairs with
  | nil => intro acc h; exact h
  | cons p rest ih =>
    intro acc h
    rw [List.foldl_cons]
    exact ih _ (renameStep_nodup np acc p h)

theorem renameStep_move (np : String) (acc : Store × Bool) (ok nk : String)
    (L : List Bookmark) (hne : ok ≠ nk) (hget : mapGet acc.1 ok = some L)
    (hn : (acc.1.map (fun kv => kv.1)).Nodup) :
    (renameStep np acc (ok, nk)).2 = true ∧
    mapGet ((renameStep np acc (ok, nk)).1) ok = none ∧
    (mapGet acc.1 nk = none →
      mapGet ((renameStep np acc (ok, nk)).1) nk =
        some (L.map (fun b => setPath b np))) ∧
    (∀ ex, mapGet acc.1 nk = some ex →
      mapGet ((renameStep np acc (ok, nk)).1) nk =
        some (ex ++ mergeDedup (ex.map (fun b => b.id))
          (L.map (fun b => setPath b np)))) := by
  rw [renameStep_eq]
  dsimp only
  rw [if_neg hne, hget]
  have hdel_nk : mapGet (mapDelete acc.1 ok) nk = mapGet acc.1 nk :=
    mapGet_delete_ne acc.1 ok nk (fun he => hne he.symm)
  cases hmem : mapGet acc.1 nk with
  | none =>
    rw [hdel_nk, hmem]
    refine ⟨rfl, ?_, fun _ => mapGet_set_self _ _ _,
      fun ex hex => absurd hex (by simp)⟩
    rw [mapGet_set_ne _ _ _ _ hne, mapGet_delete_self _ _ hn]
  | some ex =>
    rw [hdel_nk, hmem]
    refine ⟨rfl, ?_, fun hno => absurd hno (by simp), ?_⟩
    · rw [mapGet_set_ne _ _ _ _ hne, mapGet_delete_self _ _ hn]
    · intro ex' hex'
      have : ex = ex' := by injection hex'
      rw [← this, mapGet_set_self]

/-! ## Claim C7: rename merge (amended) -/

/-- C7 (amended): for a rename `oldPath → newPath` and a composite key
`getKey oldPath br` holding list `L`, *provided* the computed destination
(first-occurrence replacement of `"::" + oldPath` in the key) really is
`getKey newPath br`, the destination is not itself a selected key, and no
other selected key or computed destination collides with the source or the
destination (all automatic when scopes and document ids are free of the
`"::"` separator): after `updateFilePath` the old key is gone, the moved
markers carry `filePath = newPath`, the list is moved wholesale when the
destination had no list and merged with id-based dedup (destination order
first, then the non-duplicate movers in original order) when it had one,
and exactly one persistence/notification round is reported for the whole
rename.  Without the proviso the list can land on an unrelated key (see
the counterexample). -/
theorem C7_rename_merge_amended (s : Store) (oldPath newPath br : String)
    (L : List Bookmark)
    (h0 : (s.map (fun kv => kv.1)).Nodup)
    (h1 : mapGet s (getKey oldPath br) = some L)
    (h2 : replaceFirst (getKey oldPath br) (KEY_SEPARATOR ++ oldPath)
        (KEY_SEPARATOR ++ newPath) = getKey newPath br)
    (h3 : getKey oldPath br ≠ getKey newPath br)
    (h4 : strEndsWith (getKey newPath br) (KEY_SEPARATOR ++ oldPath) = false)
    (h5 : ∀ kv ∈ s, kv.1 ≠ getKey oldPath br →
        strEndsWith kv.1 (KEY_SEPARATOR ++ oldPath) = true →
        replaceFirst kv.1 (KEY_SEPARATOR ++ oldPath)
            (KEY_SEPARATOR ++ newPath) ≠ getKey oldPath br ∧
          replaceFirst kv.1 (KEY_SEPARATOR ++ oldPath)
            (KEY_SEPARATOR ++ newPath) ≠ getKey newPath br) :
    (updateFilePath s oldPath newPath).2 = true ∧
    getBookmarksForFile (updateFilePath s oldPath newPath).1 oldPath br
      = [] ∧
    (mapGet s (getKey newPath br) = none →
      mapGet (updateFilePath s oldPath newPath).1 (getKey newPath br) =
        some (L.map (fun b => setPath b newPath))) ∧
    (∀ ex, mapGet s (getKey newPath br) = some ex →
      mapGet (updateFilePath s oldPath newPath).1 (getKey newPath br) =
        some (ex ++ mergeDedup (ex.map (fun b => b.id))
          (L.map (fun b => setPath b newPath)))) := by
  obtain ⟨s1, s2, hs, hs1ne⟩ := mapGet_eq_some_split h1
  have hkeys : s.map (fun kv => kv.1) =
      s1.map (fun kv => kv.1) ++ getKey oldPath br :: s2.map (fun kv => kv.1) := by
    rw [hs, List.map_append, List.map_cons]
  have hs2ne : ∀ kv ∈ s2, kv.1 ≠ getKey oldPath br := by
    intro kv hkv he
    rw [hkeys] at h0
    have hnotin : getKey oldPath br ∉ s2.map (fun kv => kv.1) :=
      (List.nodup_cons.mp (List.nodup_append.mp h0).2.1).1
    exact hnotin (he ▸ List.mem_map_of_mem (fun kv => kv.1) hkv)
  have hok_ends : strEndsWith (getKey oldPath br)
      (KEY_SEPARATOR ++ oldPath) = true := by
    rw [getKey_decompose]
    exact strEndsWith_append br (KEY_SEPARATOR ++ oldPath)
  have hpairs : renamePairs s oldPath newPath =
      ((s1.filter
          (fun kv => strEndsWith kv.1 (KEY_SEPARATOR ++ oldPath))).map
        (fun kv => (kv.1, replaceFirst kv.1 (KEY_SEPARATOR ++ oldPath)
          (KEY_SEPARATOR ++ newPath)))) ++
      ((getKey oldPath br, getKey newPath br) ::
        ((s2.filter
            (fun kv => strEndsWith kv.1 (KEY_SEPARATOR ++ oldPath))).map
          (fun kv => (kv.1, replaceFirst kv.1 (KEY_SEPARATOR ++ oldPath)
            (KEY_SEPARATOR ++ newPath))))) := by
    unfold renamePairs
    rw [hs, List.filter_append,
      List.filter_cons_of_pos (by exact hok_ends),
      List.map_append, List.map_cons, h2]
  have hsides : ∀ (sl : List (String × List Bookmark)),
      (∀ kv ∈ sl, kv.1 ≠ getKey oldPath br) → (∀ kv ∈ sl, kv ∈ s) →
      ∀ p ∈ ((sl.filter
          (fun kv => strEndsWith kv.1 (KEY_SEPARATOR ++ oldPath))).map
        (fun kv => (kv.1, replaceFirst kv.1 (KEY_SEPARATOR ++ oldPath)
          (KEY_SEPARATOR ++ newPath)))),
        (p.1 ≠ getKey oldPath br ∧ p.2 ≠ getKey oldPath br) ∧
        (p.1 ≠ getKey newPath br ∧ p.2 ≠ getKey newPath br) := by
    intro sl hne hsub p hp
    obtain ⟨kv, hkv, rfl⟩ := List.mem_map.mp hp
    obtain ⟨hkv_mem, hkv_ends⟩ := List.mem_filter.mp hkv
    have hkv_ne : kv.1 ≠ getKey oldPath br := hne kv hkv_mem
    have hkv_s : kv ∈ s := hsub kv hkv_mem
    have hrep := h5 kv hkv_s hkv_ne hkv_ends
    refine ⟨⟨hkv_ne, hrep.1⟩, ⟨?_, hrep.2⟩⟩
    intro he
    rw [he, h4] at hkv_ends
    cases hkv_ends
  have hsub1 : ∀ kv ∈ s1, kv ∈ s := by
    intro kv hkv; rw [hs]; exact List.mem_append_left _ hkv
  have hsub2 : ∀ kv ∈ s2, kv ∈ s := by
    intro kv hkv; rw [hs]
    exact List.mem_append_right _ (List.mem_cons_of_mem _ hkv)
  have hA := hsides s1 hs1ne hsub1
  have hB := hsides s2 hs2ne hsub2
  set A := (s1.filter
      (fun kv => strEndsWith kv.1 (KEY_SEPARATOR ++ oldPath))).map
    (fun kv => (kv.1, replaceFirst kv.1 (KEY_SEPARATOR ++ oldPath)
      (KEY_SEPARATOR ++ newPath))) with hAdef
  set B := (s2.filter
      (fun kv => strEndsWith kv.1 (KEY_SEPARATOR ++ oldPath))).map
    (fun kv => (kv.1, replaceFirst kv.1 (KEY_SEPARATOR ++ oldPath)
      (KEY_SEPARATOR ++ newPath))) with hBdef
  have hupd : updateFilePath s oldPath newPath =
      B.foldl (renameStep newPath)
        (renameStep newPath (A.foldl (renameStep newPath) (s, false))
          (getKey oldPath br, getKey newPath br)) := by
    unfold updateFilePath
    rw [hpairs, List.foldl_append, List.foldl_cons]
  set acc1 := A.foldl (renameStep newPath) (s, false) with hacc1def
  have hacc1_ok : mapGet acc1.1 (getKey oldPath br) = some L := by
    rw [hacc1def,
      renameFold_frame newPath A (s, false) _ (fun p hp => (hA p hp).1)]
    exact h1
  have hacc1_nk : mapGet acc1.1 (getKey newPath br) =
      mapGet s (getKey newPath br) := by
    rw [hacc1def]
    exact renameFold_frame newPath A (s, false) _ (fun p hp => (hA p hp).2)
  have hacc1_nodup : (acc1.1.map (fun kv => kv.1)).Nodup := by
    rw [hacc1def]
    exact renameFold_nodup newPath A (s, false) h0
  have hstep := renameStep_move newPath acc1 (getKey oldPath br)
    (getKey newPath br) L h3 hacc1_ok hacc1_nodup
  set acc2 := renameStep newPath acc1 (getKey oldPath br, getKey newPath br)
    with hacc2def
  have hfold_ok : mapGet ((B.foldl (renameStep newPath) acc2).1)
      (getKey oldPath br) = mapGet acc2.1 (getKey oldPath br) :=
    renameFold_frame newPath B acc2 _ (fun p hp => (hB p hp).1)
  have hfold_nk : mapGet ((B.foldl (renameStep newPath) acc2).1)
      (getKey newPath br) = mapGet acc2.1 (getKey newPath br) :=
    renameFold_frame newPath B acc2 _ (fun p hp => (hB p hp).2)
  refine ⟨?_, ?_, ?_, ?_⟩
  · rw [hupd]
    exact renameFold_modified_mono newPath B acc2 hstep.1
  · unfold getBookmarksForFile
    rw [hupd, hfold_ok, hstep.2.1]
    rfl
  · intro hnone
    rw [hupd, hfold_nk]
    exact hstep.2.2.1 (hacc1_nk.trans hnone)
  · intro ex hex
    rw [hupd, hfold_nk]
    exact hstep.2.2.2 ex (hacc1_nk.trans hex)

/-- C7 witness: markers A at `(old.ts, 2, main)` and B at
`(new.ts, 7, main)`; after `rename(old.ts → new.ts)` the old key is empty,
the merged list at `(new.ts, main)` holds both ids (B first, then the
moved A with `filePath = "new.ts"`), and one save/notify round ran. -/
theorem C7_rename_merge_amended_witness :
    (updateFilePath
        [(getKey "old.ts" "main", [⟨"A", "old.ts", 2, 0, "main", none⟩]),
          (getKey "new.ts" "main", [⟨"B", "new.ts", 7, 0, "main", none⟩])]
        "old.ts" "new.ts").2 = true ∧
    getBookmarksForFile
      (updateFilePath
        [(getKey "old.ts" "main", [⟨"A", "old.ts", 2, 0, "main", none⟩]),
          (getKey "new.ts" "main", [⟨"B", "new.ts", 7, 0, "main", none⟩])]
        "old.ts" "new.ts").1 "old.ts" "main" = [] ∧
    mapGet
      (updateFilePath
        [(getKey "old.ts" "main", [⟨"A", "old.ts", 2, 0, "main", none⟩]),
          (getKey "new.ts" "main", [⟨"B", "new.ts", 7, 0, "main", none⟩])]
        "old.ts" "new.ts").1 (getKey "new.ts" "main") =
      some [⟨"B", "new.ts", 7, 0, "main", none⟩,
        ⟨"A", "new.ts", 2, 0, "main", none⟩] := by
  have h := C7_rename_merge_amended
    [(getKey "old.ts" "main", [⟨"A", "old.ts", 2, 0, "main", none⟩]),
      (getKey "new.ts" "main", [⟨"B", "new.ts", 7, 0, "main", none⟩])]
    "old.ts" "new.ts" "main" [⟨"A", "old.ts", 2, 0, "main", none⟩]
    (by decide) (by decide) (by decide) (by decide) (by decide) (by decide)
  refine ⟨h.1, h.2.1, ?_⟩
  have := h.2.2.2 [⟨"B", "new.ts", 7, 0, "main", none⟩] (by decide)
  rw [this]
  decide

/-! ## Reanchorer lemmas -/

theorem scanGo_fst (sl : Int) (rawT normT : String) :
    ∀ (rest : List String) (i : Nat) (r n : Option (Nat × Nat)),
      (scanGo sl rawT normT i rest r n).1 =
        scanOne sl (fun s => rawT ≠ "" ∧ jsTrim s = rawT) i rest r := by
  intro rest
  induction rest with
  | nil => intro i r n; rfl
  | cons s rest ih =>
    intro i r n
    simp only [scanGo, scanOne]
    rw [ih]
    congr 1
    rw [if_congr (Iff.symm and_assoc) rfl rfl]

theorem scanGo_snd (sl : Int) (rawT normT : String) :
    ∀ (rest : List String) (i : Nat) (r n : Option (Nat × Nat)),
      (scanGo sl rawT normT i rest r n).2 =
        scanOne sl (fun s => normT ≠ "" ∧ normalizeLineForMatch s = normT)
          i rest n := by
  intro rest
  induction rest with
  | nil => intro i r n; rfl
  | cons s rest ih =>
    intro i r n
    simp only [scanGo, scanOne]
    rw [ih]
    congr 1
    rw [if_congr (Iff.symm and_assoc) rfl rfl]

theorem scanOne_spec (sl : Int) (p : String → Prop) [DecidablePred p] :
    ∀ (rest : List String) (i : Nat) (r : Option (Nat × Nat)),
      (∀ l d, r = some (l, d) → d = lineDist l sl) →
      ((scanOne sl p i rest r = r ∨
        ∃ j, j < rest.length ∧
          scanOne sl p i rest r = some (i + j, lineDist (i + j) sl) ∧
          p (rest.getD j "")) ∧
      (∀ l d, scanOne sl p i rest r = some (l, d) → d = lineDist l sl) ∧
      (∀ l0 d0 l d, r = some (l0, d0) →
        scanOne sl p i rest r = some (l, d) → d ≤ d0) ∧
      (∀ j, j < rest.length → p (rest.getD j "") →
        ∃ l d, scanOne sl p i rest r = some (l, d) ∧
          d ≤ lineDist (i + j) sl) ∧
      (scanOne sl p i rest r = none →
        r = none ∧ ∀ j, j < rest.length → ¬ p (rest.getD j ""))) := by
  intro rest
  induction rest with
  | nil =>
    intro i r hwf
    have hnil : scanOne sl p i [] r = r := rfl
    rw [hnil]
    refine ⟨Or.inl rfl, hwf, ?_, ?_, ?_⟩
    · intro l0 d0 l d hr hres
      rw [hr] at hres
      simp only [Option.some.injEq, Prod.mk.injEq] at hres
      exact le_of_eq hres.2.symm
    · intro j hj
      exact absurd hj (Nat.not_lt_zero j)
    · intro hres
      exact ⟨hres, fun j hj => absurd hj (Nat.not_lt_zero j)⟩
  | cons s rest ih =>
    intro i r hwf
    set r1 := if p s ∧ betterDist r (lineDist i sl) then
        some (i, lineDist i sl) else r with hr1def
    have heq : scanOne sl p i (s :: rest) r =
        scanOne sl p (i + 1) rest r1 := by
      rw [hr1def]
      rfl
    have hwf1 : ∀ l d, r1 = some (l, d) → d = lineDist l sl := by
      intro l d h
      rw [hr1def] at h
      split at h
      · simp only [Option.some.injEq, Prod.mk.injEq] at h
        rw [← h.1, ← h.2]
      · exact hwf l d h
    obtain ⟨ihS, ihW, ihI, ihM, ihN⟩ := ih (i + 1) r1 hwf1
    rw [heq]
    refine ⟨?_, ihW, ?_, ?_, ?_⟩
    · rcases ihS with h | ⟨j, hj, hres, hpj⟩
      · by_cases hcond : p s ∧ betterDist r (lineDist i sl)
        · right
          refine ⟨0, Nat.succ_pos _, ?_, ?_⟩
          · rw [h, hr1def, if_pos hcond, Nat.add_zero]
          · exact hcond.1
        · left
          rw [h, hr1def, if_neg hcond]
      · right
        refine ⟨j + 1, Nat.succ_lt_succ hj, ?_, hpj⟩
        have harith : i + 1 + j = i + (j + 1) := by omega
        rw [← harith]
        exact hres
    · intro l0 d0 l d hr hres
      by_cases hcond : p s ∧ betterDist r (lineDist i sl)
      · have hr1 : r1 = some (i, lineDist i sl) := by
          rw [hr1def, if_pos hcond]
        have hd := ihI i (lineDist i sl) l d hr1 hres
        have hbet := hcond.2
        rw [hr] at hbet
        simp only [betterDist] at hbet
        exact hd.trans (le_of_lt hbet)
      · have hr1 : r1 = r := by rw [hr1def, if_neg hcond]
        exact ihI l0 d0 l d (by rw [hr1, hr]) hres
    · intro j hj hpj
      cases j with
      | zero =>
        have hps : p s := hpj
        by_cases hbet : betterDist r (lineDist i sl)
        · have hr1 : r1 = some (i, lineDist i sl) := by
            rw [hr1def, if_pos ⟨hps, hbet⟩]
          cases hres : scanOne sl p (i + 1) rest r1 with
          | none =>
            have := (ihN hres).1
            rw [hr1] at this
            cases this
          | some ld =>
            obtain ⟨l, d⟩ := ld
            refine ⟨l, d, rfl, ?_⟩
            have hd := ihI i (lineDist i sl) l d hr1 hres
            simpa [Nat.add_zero] using hd
        · cases hr : r with
          | none =>
            rw [hr] at hbet
            simp [betterDist] at hbet
          | some ld0 =>
            obtain ⟨l0, d0⟩ := ld0
            have hle : d0 ≤ lineDist i sl := by
              rw [hr] at hbet
              simpa [betterDist, not_lt] using hbet
            have hr1 : r1 = r := by
              rw [hr1def, if_neg (fun hc => hbet hc.2)]
            cases hres : scanOne sl p (i + 1) rest r1 with
            | none =>
              have := (ihN hres).1
              rw [hr1, hr] at this
              cases this
            | some ld =>
              obtain ⟨l, d⟩ := ld
              refine ⟨l, d, rfl, ?_⟩
              have hd := ihI l0 d0 l d (by rw [hr1, hr]) hres
              have : d ≤ lineDist i sl := hd.trans hle
              simpa [Nat.add_zero] using this
      | succ j =>
        have hp' : p (rest.getD j "") := hpj
        obtain ⟨l, d, hres, hd⟩ := ihM j (Nat.lt_of_succ_lt_succ hj) hp'
        refine ⟨l, d, hres, ?_⟩
        have harith : i + 1 + j = i + (j + 1) := by omega
        rw [← harith]
        exact hd
    · intro hres
      obtain ⟨hr1none, hrest⟩ := ihN hres
      have hcondF : ¬ (p s ∧ betterDist r (lineDist i sl)) := by
        intro hc
        rw [hr1def, if_pos hc] at hr1none
        cases hr1none
      have hrnone : r = none := by
        rw [hr1def, if_neg hcondF] at hr1none
        exact hr1none
      refine ⟨hrnone, ?_⟩
      intro j hj
      cases j with
      | zero =>
        intro hps
        apply hcondF
        refine ⟨hps, ?_⟩
        rw [hrnone]
        exact trivial
      | succ j =>
        exact hrest j (Nat.lt_of_succ_lt_succ hj)

theorem collapseWsAux_ne_nil (l : List Char) (h : l ≠ []) :
    collapseWsAux false l ≠ [] := by
  cases l with
  | nil => exact absurd rfl h
  | cons c rest =>
    simp only [collapseWsAux]
    split <;> simp

theorem normalize_length_pos (t : String) (h : jsTrim t ≠ "") :
    0 < (normalizeLineForMatch t).length := by
  have hd : trimChars t.data ≠ [] := by
    intro he
    apply h
    show (⟨trimChars t.data⟩ : String) = ""
    rw [he]
  have hc : collapseWsAux false (trimChars t.data) ≠ [] :=
    collapseWsAux_ne_nil _ hd
  show 0 < (collapseWsAux false (trimChars t.data)).length
  exact List.length_pos.mpr hc

theorem normalize_ne_empty (t : String) (h : jsTrim t ≠ "") :
    normalizeLineForMatch t ≠ "" := by
  intro he
  have := normalize_length_pos t h
  rw [he] at this
  exact absurd this (by decide)

/-! ## Claim C8: lexical reanchoring -/

/-- C8: for a document with at least one line and a marker whose cached
preview is not pure whitespace, `findBestBookmarkLineMatch`:
(1) returns the clamped stored line when that line matches the preview
under exact-trim or whitespace-collapsed equality;
otherwise (both checks fail at the clamped line):
(2a) when no line matches either predicate, it fails (returns `none`);
(2b) when some line matches under exact-trim equality, it returns an
exact-trim-matching line whose absolute distance from the stored line is
minimal among all exact-trim matches — so an exact-trim match is preferred
even when a whitespace-collapsed match is closer;
(2c) when no line matches exact-trim but some line matches
whitespace-collapsed equality, it returns a collapsed-matching line of
minimal distance. -/
theorem C8_lexical_reanchoring (doc : List String) (storedLine : Int)
    (t : String) (hdoc : doc ≠ []) (htrim : jsTrim t ≠ "") :
    ((jsTrim (lineAt doc (clampLine doc storedLine)) = jsTrim t ∨
        normalizeLineForMatch (lineAt doc (clampLine doc storedLine)) =
          normalizeLineForMatch t) →
      findBestBookmarkLineMatch doc storedLine (some t) =
        some (clampLine doc storedLine)) ∧
    (jsTrim (lineAt doc (clampLine doc storedLine)) ≠ jsTrim t →
      normalizeLineForMatch (lineAt doc (clampLine doc storedLine)) ≠
        normalizeLineForMatch t →
      ((∀ j, j < doc.length → jsTrim (lineAt doc j) ≠ jsTrim t) →
        (∀ j, j < doc.length →
          normalizeLineForMatch (lineAt doc j) ≠ normalizeLineForMatch t) →
        findBestBookmarkLineMatch doc storedLine (some t) = none) ∧
      (∀ j0, j0 < doc.length → jsTrim (lineAt doc j0) = jsTrim t →
        ∃ l, findBestBookmarkLineMatch doc storedLine (some t) = some l ∧
          l < doc.length ∧ jsTrim (lineAt doc l) = jsTrim t ∧
          ∀ j, j < doc.length → jsTrim (lineAt doc j) = jsTrim t →
            lineDist l storedLine ≤ lineDist j storedLine) ∧
      ((∀ j, j < doc.length → jsTrim (lineAt doc j) ≠ jsTrim t) →
        ∀ j0, j0 < doc.length →
        normalizeLineForMatch (lineAt doc j0) = normalizeLineForMatch t →
        ∃ l, findBestBookmarkLineMatch doc storedLine (some t) = some l ∧
          l < doc.length ∧
          normalizeLineForMatch (lineAt doc l) = normalizeLineForMatch t ∧
          ∀ j, j < doc.length →
            normalizeLineForMatch (lineAt doc j) = normalizeLineForMatch t →
            lineDist l storedLine ≤ lineDist j storedLine)) := by
  have hlen0 : ¬ doc.length = 0 := fun h => hdoc (List.length_eq_zero.mp h)
  have hguard : ¬ (jsTrim t = "" ∧ normalizeLineForMatch t = "") :=
    fun hc => htrim hc.1
  have hlenN : 0 < (normalizeLineForMatch t).length :=
    normalize_length_pos t htrim
  have hnormne : normalizeLineForMatch t ≠ "" := normalize_ne_empty t htrim
  constructor
  · intro hm
    by_cases hraw : jsTrim (lineAt doc (clampLine doc storedLine)) = jsTrim t
    · simp only [findBestBookmarkLineMatch]
      rw [if_neg hlen0, if_neg hguard, if_pos hraw]
    · have hnormEq := hm.resolve_left hraw
      simp only [findBestBookmarkLineMatch]
      rw [if_neg hlen0, if_neg hguard, if_neg hraw, if_pos ⟨hnormEq, hlenN⟩]
  · intro hraw hnorm
    have hred : findBestBookmarkLineMatch doc storedLine (some t) =
        (match scanGo storedLine (jsTrim t) (normalizeLineForMatch t)
            0 doc none none with
          | (some best, _) => some best.1
          | (none, some best) => some best.1
          | (none, none) => none) := by
      simp only [findBestBookmarkLineMatch]
      rw [if_neg hlen0, if_neg hguard, if_neg hraw,
        if_neg (fun hc => hnorm hc.1)]
    obtain ⟨sR, wR, iR, mR, nR⟩ := scanOne_spec storedLine
      (fun s => jsTrim t ≠ "" ∧ jsTrim s = jsTrim t) doc 0 none
      (fun l d h => by cases h)
    obtain ⟨sN, wN, iN, mN, nN⟩ := scanOne_spec storedLine
      (fun s => normalizeLineForMatch t ≠ "" ∧
        normalizeLineForMatch s = normalizeLineForMatch t) doc 0 none
      (fun l d h => by cases h)
    refine ⟨?_, ?_, ?_⟩
    · intro hnoraw hnonorm
      have hfst : (scanGo storedLine (jsTrim t) (normalizeLineForMatch t)
          0 doc none none).1 = none := by
        rw [scanGo_fst]
        rcases sR with h | ⟨j, hj, _, hpj⟩
        · exact h
        · exact absurd hpj.2 (hnoraw j hj)
      have hsnd : (scanGo storedLine (jsTrim t) (normalizeLineForMatch t)
          0 doc none none).2 = none := by
        rw [scanGo_snd]
        rcases sN with h | ⟨j, hj, _, hpj⟩
        · exact h
        · exact absurd hpj.2 (hnonorm j hj)
      have hpair : scanGo storedLine (jsTrim t) (normalizeLineForMatch t)
          0 doc none none = (none, none) := Prod.ext hfst hsnd
      rw [hred, hpair]
    · intro j0 hj0 hmatch
      obtain ⟨l, d, hres, _⟩ := mR j0 hj0 ⟨htrim, hmatch⟩
      have hfst : (scanGo storedLine (jsTrim t) (normalizeLineForMatch t)
          0 doc none none).1 = some (l, d) := by
        rw [scanGo_fst]; exact hres
      have hpair : scanGo storedLine (jsTrim t) (normalizeLineForMatch t)
          0 doc none none = (some (l, d),
            (scanGo storedLine (jsTrim t) (normalizeLineForMatch t)
              0 doc none none).2) := Prod.ext hfst rfl
      have hout : findBestBookmarkLineMatch doc storedLine (some t) =
          some l := by
        rw [hred, hpair]
      rcases sR with h | ⟨j, hj, hres', hpj⟩
      · rw [h] at hres; cases hres
      · rw [hres] at hres'
        simp only [Option.some.injEq, Prod.mk.injEq, Nat.zero_add] at hres'
        refine ⟨l, hout, hres'.1 ▸ hj, hres'.1 ▸ hpj.2, ?_⟩
        intro j' hj' hm'
        obtain ⟨l', d', hres2, hd2⟩ := mR j' hj' ⟨htrim, hm'⟩
        rw [hres] at hres2
        simp only [Option.some.injEq, Prod.mk.injEq] at hres2
        rw [Nat.zero_add] at hd2
        have hdl : d = lineDist l storedLine := wR l d hres
        rw [← hdl, hres2.2]
        exact hd2
    · intro hnoraw j0 hj0 hmatch
      have hfst : (scanGo storedLine (jsTrim t) (normalizeLineForMatch t)
          0 doc none none).1 = none := by
        rw [scanGo_fst]
        rcases sR with h | ⟨j, hj, _, hpj⟩
        · exact h
        · exact absurd hpj.2 (hnoraw j hj)
      obtain ⟨l, d, hres, _⟩ := mN j0 hj0 ⟨hnormne, hmatch⟩
      have hsnd : (scanGo storedLine (jsTrim t) (normalizeLineForMatch t)
          0 doc none none).2 = some (l, d) := by
        rw [scanGo_snd]; exact hres
      have hpair : scanGo storedLine (jsTrim t) (normalizeLineForMatch t)
          0 doc none none = (none, some (l, d)) := Prod.ext hfst hsnd
      have hout : findBestBookmarkLineMatch doc storedLine (some t) =
          some l := by
        rw [hred, hpair]
      rcases sN with h | ⟨j, hj, hres', hpj⟩
      · rw [h] at hres; cases hres
      · rw [hres] at hres'
        simp only [Option.some.injEq, Prod.mk.injEq, Nat.zero_add] at hres'
        refine ⟨l, hout, hres'.1 ▸ hj, hres'.1 ▸ hpj.2, ?_⟩
        intro j' hj' hm'
        obtain ⟨l', d', hres2, hd2⟩ := mN j' hj' ⟨hnormne, hm'⟩
        rw [hres] at hres2
        simp only [Option.some.injEq, Prod.mk.injEq] at hres2
        rw [Nat.zero_add] at hd2
        have hdl : d = lineDist l storedLine := wN l d hres
        rw [← hdl, hres2.2]
        exact hd2

/-- C8 witness: document `["a  a", "bb", "a a"]`, stored line 1, preview
`"a a"`: the clamped line 1 matches neither predicate; line 0 matches only
whitespace-collapsed (and is at distance 1), line 2 matches exact-trim
(distance 1) — the exact-trim match at line 2 wins. -/
theorem C8_lexical_reanchoring_witness :
    (∃ l, findBestBookmarkLineMatch ["a  a", "bb", "a a"] 1 (some "a a") =
        some l ∧ l < 3 ∧ jsTrim (lineAt ["a  a", "bb", "a a"] l) =
          jsTrim "a a" ∧
        ∀ j, j < 3 → jsTrim (lineAt ["a  a", "bb", "a a"] j) = jsTrim "a a" →
          lineDist l 1 ≤ lineDist j 1) ∧
    findBestBookmarkLineMatch ["a  a", "bb", "a a"] 1 (some "a a") =
      some 2 := by
  have h := C8_lexical_reanchoring ["a  a", "bb", "a a"] 1 "a a"
    (by decide) (by decide)
  refine ⟨(h.2 (by decide) (by decide)).2.1 2 (by decide) (by decide), ?_⟩
  decide

end BB
